import Mathlib

/-!
Verification of the inkwise core: a shallow embedding of the state
sanitizer (src/state-manager.js), the zod schema validator and import
boundary (schemas.js), the thread splitter (utils.js), and the draft
builder (draft-builder.js), together with proofs and refutations of the
specified properties.

JavaScript values are modelled by the inductive type `JSVal`.  Numbers are
modelled as integers (every numeric literal in the embedded code is an
integer; fractional doubles play no role in any verified property).
Objects are modelled as association lists in insertion order, mirroring
JS enumeration order for the string keys that occur here.
-/

set_option maxHeartbeats 1000000
set_option maxRecDepth 100000

inductive JSVal where
  | null
  | undef
  | bool (b : Bool)
  | num (n : Int)
  | str (s : String)
  | arr (elems : List JSVal)
  | obj (fields : List (String × JSVal))

namespace JSVal

/-- JS truthiness: `null`, `undefined`, `false`, `0` and `""` are falsy. -/
def truthyB : JSVal → Bool
  | .null => false
  | .undef => false
  | .bool b => b
  | .num n => n != 0
  | .str s => s != ""
  | .arr _ => true
  | .obj _ => true

/-- `typeof v === "object"` (true for `null`, arrays and plain objects). -/
def isObjTypeB : JSVal → Bool
  | .null => true
  | .arr _ => true
  | .obj _ => true
  | _ => false

end JSVal

/-- Keys of an association list of object fields. -/
def keys (fs : List (String × JSVal)) : List String := fs.map Prod.fst

/-- First-match lookup in an object's field list. -/
def getF : List (String × JSVal) → String → Option JSVal
  | [], _ => none
  | p :: rest, k => if p.1 = k then some p.2 else getF rest k

/-- Last-match lookup: the value an object built by repeated assignment of
these pairs would hold (later duplicates win, as in JS object spread). -/
def getLast? : List (String × JSVal) → String → Option JSVal
  | [], _ => none
  | p :: rest, k =>
    match getLast? rest k with
    | some v => some v
    | none => if p.1 = k then some p.2 else none

/-- JS property access `v[k]`: `undefined` on absent keys and non-objects. -/
def jsGet (v : JSVal) (k : String) : JSVal :=
  match v with
  | .obj fs => (getF fs k).getD .undef
  | _ => (.undef)

/-- JS property assignment `o[k] = v`: overwrite in place, else append. -/
def objSet (fs : List (String × JSVal)) (k : String) (v : JSVal) :
    List (String × JSVal) :=
  if k ∈ keys fs then fs.map (fun p => if p.1 = k then (k, v) else p)
  else fs ++ [(k, v)]

/-- Object spread `{...base, ...extra}` as repeated assignment. -/
def spreadInto (base extra : List (String × JSVal)) : List (String × JSVal) :=
  extra.foldl (fun acc p => objSet acc p.1 p.2) base

/-- Enumerable own fields used by spread: an array spreads its indices. -/
def idxPairs : Nat → List JSVal → List (String × JSVal)
  | _, [] => []
  | i, x :: xs => (toString i, x) :: idxPairs (i + 1) xs

def enumFields : JSVal → List (String × JSVal)
  | .obj fs => fs
  | .arr xs => idxPairs 0 xs
  | _ => []

mutual

/-- JS `String(v)` coercion for the value shapes in this model. -/
def jsToString : JSVal → String
  | .null => "null"
  | .undef => "undefined"
  | .bool true => "true"
  | .bool false => "false"
  | .num n => toString n
  | .str s => s
  | .arr xs => jsToStrList xs
  | .obj _ => "[object Object]"

/-- `Array.prototype.toString`: elements joined by commas, with `null` and
`undefined` entries rendering as the empty string. -/
def jsToStrList : List JSVal → String
  | [] => ""
  | [JSVal.null] => ""
  | [JSVal.undef] => ""
  | [x] => jsToString x
  | JSVal.null :: xs => "," ++ jsToStrList xs
  | JSVal.undef :: xs => "," ++ jsToStrList xs
  | x :: xs => jsToString x ++ "," ++ jsToStrList xs

end

/-- `pat` is a leading segment of the character list. -/
def listStarts : List Char → List Char → Bool
  | [], _ => true
  | _ :: _, [] => false
  | p :: ps, c :: cs => p == c && listStarts ps cs

/-- JS `s.startsWith(pat)`. -/
def strStarts (s pat : String) : Bool := listStarts pat.toList s.toList

/-- Value of a run of decimal digits. -/
def digitsVal (cs : List Char) : Nat :=
  cs.foldl (fun acc c => 10 * acc + (c.toNat - 48)) 0

/-- Whitespace for JS `trim` / `parseInt` purposes. -/
def isWS (c : Char) : Bool := c = ' ' || c = '\n' || c = '\t' || c = '\r'

/-- `parseInt(s, 10)`: skip whitespace, optional sign, longest digit run;
`none` models `NaN`. -/
def parseIntStr (s : String) : Option Int :=
  let cs := s.toList.dropWhile isWS
  match cs with
  | '-' :: rest =>
    let ds := rest.takeWhile Char.isDigit
    if ds.isEmpty then none else some (-(digitsVal ds : Int))
  | '+' :: rest =>
    let ds := rest.takeWhile Char.isDigit
    if ds.isEmpty then none else some ((digitsVal ds : Int))
  | _ =>
    let ds := cs.takeWhile Char.isDigit
    if ds.isEmpty then none else some ((digitsVal ds : Int))

/-- `parseInt` applied to an arbitrary value (argument is coerced to a
string first; an integer number round-trips to itself). -/
def parseIntJS : JSVal → Option Int
  | .num n => some n
  | v => parseIntStr (jsToString v)

/-- utils.js `clampInt(value, min, max, fallback)`. -/
def clampInt (v : JSVal) (lo hi fallback : Int) : Int :=
  match parseIntJS v with
  | none => fallback
  | some n => max lo (min hi n)

/-! ## State sanitizer (state-manager.js) -/

def defaultClaim : JSVal := .obj [("id", .str "default-claim-id"), ("text", .str "")]

def defaultUiFields : List (String × JSVal) := [("presetId", .str "systems_coordination")]

def defaultLinkedinFields : List (String × JSVal) :=
  [ ("hookOverride", .str "")
  , ("includeBullets", .bool false)
  , ("bulletIntro", .str "Key points:")
  , ("maxBullets", .num 5)
  , ("includeCTA", .bool true)
  , ("ctaText", .str "What would you change?")
  , ("includeHashtags", .bool false)
  , ("hashtags", .str "#leadership #execution #systems")
  , ("includeSignature", .bool false)
  , ("signature", .str "— Posted via Inkwise") ]

/-- `DEFAULT_STATE` of state-manager.js, in declaration order. -/
def defaultStateFields : List (String × JSVal) :=
  [ ("phase", .str "intent")
  , ("intent", .str "")
  , ("claims", .arr [defaultClaim])
  , ("expressions", .obj [])
  , ("outputProfile", .str "linkedin")
  , ("ui", .obj defaultUiFields)
  , ("linkedin", .obj defaultLinkedinFields) ]

def validPhases : List String := ["intent", "structure", "expression", "draft"]

def profileKeys : List String :=
  ["linkedin", "xthread", "email", "memo", "blog", "custom"]

def sessionTag : String := "inkwise:session:"

/-- The envelope-unwrap test at the top of `sanitizeAndMergeState`:
`maybeState && typeof maybeState === "object" && maybeState.state &&
typeof maybeState.state === "object" && maybeState.version &&
String(maybeState.version).startsWith("inkwise:session:")`. -/
def unwrapCond (x : JSVal) : Bool :=
  x.truthyB && x.isObjTypeB
    && (jsGet x "state").truthyB && (jsGet x "state").isObjTypeB
    && (jsGet x "version").truthyB
    && strStarts (jsToString (jsGet x "version")) sessionTag

/-- The working candidate: the nested `state` when the input looks like a
session export envelope, the input itself otherwise. -/
def selectCandidate (x : JSVal) : JSVal :=
  if unwrapCond x then jsGet x "state" else x

/-- Claims repair loop: `merged.claims.map(c => ({id: c && c.id ? c.id :
uuidFn(), text: c && typeof c.text === "string" ? c.text : ""}))`, with the
injected id generator modelled as a function of its call index. -/
def claimIdOf (g : Nat → String) (n : Nat) (c : JSVal) : JSVal :=
  if c.truthyB && (jsGet c "id").truthyB then jsGet c "id" else .str (g n)

def claimTextOf (c : JSVal) : JSVal :=
  if c.truthyB then
    match jsGet c "text" with
    | .str s => .str s
    | _ => .str ""
  else .str ""

def sanitizeClaims (g : Nat → String) : Nat → List JSVal → List JSVal
  | _, [] => []
  | n, c :: cs =>
    .obj [("id", claimIdOf g n c), ("text", claimTextOf c)] ::
      sanitizeClaims g (if c.truthyB && (jsGet c "id").truthyB then n else n + 1) cs

/-- Fields of `parsed.ui` / `parsed.linkedin` when they pass
`x && typeof x === "object" && !Array.isArray(x)`, else none. -/
def objFieldsOf : JSVal → List (String × JSVal)
  | .obj fs => fs
  | _ => []

/-- `if (!VALID_PHASES.has(merged.phase)) merged.phase = "intent"`.
`Set.has` compares without coercion, so only the four exact strings pass. -/
def fixPhase (m : List (String × JSVal)) : List (String × JSVal) :=
  match getF m "phase" with
  | some (.str s) => if validPhases.contains s then m else objSet m "phase" (.str "intent")
  | _ => objSet m "phase" (.str "intent")

/-- `if (!OUTPUT_PROFILES[merged.outputProfile]) merged.outputProfile =
"linkedin"`.  A property lookup coerces its key to a string, so any value
whose coercion is one of the six own keys is kept.  (The JS prototype
chain would additionally keep keys such as "toString"; no verified claim
depends on that corner.) -/
def fixProfile (m : List (String × JSVal)) : List (String × JSVal) :=
  if profileKeys.contains (jsToString ((getF m "outputProfile").getD .undef)) then m
  else objSet m "outputProfile" (.str "linkedin")

/-- `candidate && typeof candidate === "object" ? candidate : {}`. -/
def parsedOf (candidate : JSVal) : JSVal :=
  if candidate.truthyB && candidate.isObjTypeB then candidate else .obj []

/-- `intent: typeof parsed.intent === "string" ? parsed.intent : ""`. -/
def sanIntent (parsed : JSVal) : JSVal :=
  match jsGet parsed "intent" with
  | .str s => .str s
  | _ => .str ""

/-- `claims: Array.isArray(parsed.claims) && parsed.claims.length ?
parsed.claims : clone(DEFAULT_STATE.claims)`. -/
def sanClaimsRaw (parsed : JSVal) : List JSVal :=
  match jsGet parsed "claims" with
  | .arr cs => if cs.isEmpty then [defaultClaim] else cs
  | _ => [defaultClaim]

/-- `expressions: parsed.expressions && typeof === "object" &&
!Array.isArray(...) ? parsed.expressions : {}`. -/
def sanExpressions (parsed : JSVal) : JSVal :=
  match jsGet parsed "expressions" with
  | .obj fs => .obj fs
  | _ => .obj []

/-- `ui: {...clone(DEFAULT_STATE.ui), ...(valid parsed.ui or {})}`. -/
def sanUi (parsed : JSVal) : JSVal :=
  .obj (spreadInto defaultUiFields (objFieldsOf (jsGet parsed "ui")))

/-- `linkedin: {...clone(DEFAULT_STATE.linkedin), ...(valid parsed.linkedin
or {})}`. -/
def sanLinkedinRaw (parsed : JSVal) : List (String × JSVal) :=
  spreadInto defaultLinkedinFields (objFieldsOf (jsGet parsed "linkedin"))

/-- The merged `linkedin` object after the later
`merged.linkedin.maxBullets = clampInt(merged.linkedin.maxBullets, 1, 12, 5)`. -/
def sanLinkedin (parsed : JSVal) : JSVal :=
  .obj (objSet (sanLinkedinRaw parsed) "maxBullets"
    (.num (clampInt ((getF (sanLinkedinRaw parsed) "maxBullets").getD .undef) 1 12 5)))

/-- The full field list of the sanitized state: spread of the candidate
over the defaults, the five explicitly rebuilt fields, then the phase and
output-profile validations. -/
def mergedFields (g : Nat → String) (candidate : JSVal) : List (String × JSVal) :=
  let parsed := parsedOf candidate
  fixProfile (fixPhase
    (objSet (objSet (objSet (objSet (objSet
      (spreadInto defaultStateFields (enumFields parsed))
      "intent" (sanIntent parsed))
      "claims" (.arr (sanitizeClaims g 0 (sanClaimsRaw parsed))))
      "expressions" (sanExpressions parsed))
      "ui" (sanUi parsed))
      "linkedin" (sanLinkedin parsed)))

/-- Body of `sanitizeAndMergeState` after the envelope unwrap. -/
def sanitizeCore (g : Nat → String) (candidate : JSVal) : JSVal :=
  .obj (mergedFields g candidate)

/-- `sanitizeAndMergeState(maybeState, uuidFn)` of state-manager.js. -/
def sanitizeAndMergeState (g : Nat → String) (x : JSVal) : JSVal :=
  sanitizeCore g (selectCandidate x)

/-! ## Thread splitter (utils.js `splitIntoThread`) -/

/-- JS `String.prototype.trim` over the character list. -/
def trimChars (cs : List Char) : List Char :=
  ((cs.dropWhile isWS).reverse.dropWhile isWS).reverse

def jsTrim (s : String) : String := String.mk (trimChars s.toList)

/-- `s.lastIndexOf(c, fro)`: greatest index `i ≤ fro` holding `c`, else -1. -/
def lastIdxLe (cs : List Char) (c : Char) (fro : Nat) : Int :=
  (List.range (min (fro + 1) cs.length)).foldl
    (fun acc i => if cs.get? i = some c then (i : Int) else acc) (-1)

/-- One iteration's cut point: the last newline at or before `size`, else
(when that is below the 120-character viability threshold) the last space,
else a hard cut exactly at `size`. -/
def cutAt (rem : List Char) (size : Nat) : Nat :=
  let cut1 : Int := lastIdxLe rem '\n' size
  let cut2 : Int := if cut1 < 120 then lastIdxLe rem ' ' size else cut1
  (if cut2 < 120 then (size : Int) else cut2).toNat

/-- The `while (remaining.length > size)` loop of `splitIntoThread`,
with explicit fuel.  For `size ≥ 1` each iteration strictly shortens
`remaining`, so fuel `remaining.length + 1` is never exhausted; for
`size = 0` the JS loop does not terminate on most inputs, and no verified
claim concerns that degenerate limit. -/
def threadLoop (size : Nat) : Nat → List Char → List (List Char)
  | 0, _ => []
  | fuel + 1, rem =>
    if rem.length > size then
      trimChars (rem.take (cutAt rem size)) ::
        threadLoop size fuel (trimChars (rem.drop (cutAt rem size)))
    else if rem.isEmpty then [] else [rem]

/-- The un-numbered chunk bodies produced by `splitIntoThread`. -/
def threadChunks (text : String) (size : Nat) : List (List Char) :=
  threadLoop size ((trimChars text.toList).length + 1) (trimChars text.toList)

/-- `chunks.map((c, i) => `${i+1}/${n}\n${c}`)`, with the index threaded
explicitly. -/
def numberFrom (n : Nat) : Nat → List String → List String
  | _, [] => []
  | i, c :: cs => (toString (i + 1) ++ "/" ++ toString n ++ "\n" ++ c) :: numberFrom n (i + 1) cs

def numberChunks (cs : List String) : List String := numberFrom cs.length 0 cs

/-- utils.js `splitIntoThread(text, size)`. -/
def splitIntoThread (text : String) (size : Nat) : List String :=
  numberChunks ((threadChunks text size).map String.mk)

/-! ## Draft builder (draft-builder.js)

The draft builder consumes canonical state snapshots; it is embedded over
a typed record mirroring the canonical Session State shape (claim ids and
texts are strings there).  `expressions` keeps `JSVal` values because
`getCleanParagraphs` explicitly guards against non-string entries. -/

structure ClaimT where
  id : String
  text : String
deriving Repr, DecidableEq

structure LinkedInCfg where
  hookOverride : String
  includeBullets : Bool
  bulletIntro : String
  maxBullets : Int
  includeCTA : Bool
  ctaText : String
  includeHashtags : Bool
  hashtags : String
  includeSignature : Bool
  signature : String
deriving Repr

structure DraftState where
  intent : String
  claims : List ClaimT
  expressions : List (String × JSVal)
  outputProfile : String
  linkedin : LinkedInCfg

/-- The `DEFAULT_STATE.linkedin` configuration. -/
def defaultLinkedInCfg : LinkedInCfg :=
  { hookOverride := ""
  , includeBullets := false
  , bulletIntro := "Key points:"
  , maxBullets := 5
  , includeCTA := true
  , ctaText := "What would you change?"
  , includeHashtags := false
  , hashtags := "#leadership #execution #systems"
  , includeSignature := false
  , signature := "— Posted via Inkwise" }

/-- `clampInt` applied to a number (`parseInt` of an integer is itself). -/
def clampIntNum (n lo hi : Int) : Int := max lo (min hi n)

/-- `getCleanClaims`: trim each claim's text, keep the non-empty ones. -/
def getCleanClaims (claims : List ClaimT) : List ClaimT :=
  (claims.map (fun c => { c with text := jsTrim c.text })).filter
    (fun c => c.text ≠ "")

/-- `expressions[c.id]` on the expressions map. -/
def exprLookup (es : List (String × JSVal)) (k : String) : JSVal :=
  (getF es k).getD (.undef)

/-- `getCleanParagraphs`: per claim, its expression trimmed when it is a
string and the empty string otherwise, then the empty entries filtered
out — note the filtering compacts the list, losing index alignment. -/
def getCleanParagraphs (claims : List ClaimT) (es : List (String × JSVal)) :
    List String :=
  (claims.map (fun c =>
    match exprLookup es c.id with
    | .str s => jsTrim s
    | _ => "")).filter (fun s => s ≠ "")

/-- Interleave a list with blank lines: `[p, "", q, "", ...]`. -/
def withBlanks (ps : List String) : List String :=
  ps.foldr (fun p acc => p :: "" :: acc) []

/-- draft-builder.js `buildLinkedInDraft(state)`. -/
def buildLinkedInDraft (st : DraftState) : String :=
  let intent := jsTrim st.intent
  let cfg := st.linkedin
  let claims := getCleanClaims st.claims
  let paragraphs := getCleanParagraphs claims st.expressions
  let hook := if jsTrim cfg.hookOverride ≠ "" then jsTrim cfg.hookOverride else intent
  let l1 : List String := if hook ≠ "" then [hook, ""] else []
  let l2 : List String :=
    if cfg.includeBullets ∧ claims ≠ [] then
      let n := (clampIntNum cfg.maxBullets 1 12).toNat
      (if jsTrim cfg.bulletIntro ≠ "" then [jsTrim cfg.bulletIntro] else []) ++
        (claims.take n).map (fun c => "• " ++ c.text) ++ [""]
    else []
  let l3 : List String :=
    if paragraphs ≠ [] then withBlanks paragraphs
    else if hook = "" ∧ claims ≠ [] then
      withBlanks ((claims.take (clampIntNum cfg.maxBullets 1 12).toNat).map ClaimT.text)
    else if hook = "" then ["(Add intent/claims/expressions to generate a draft.)", ""]
    else []
  let l4 : List String :=
    if cfg.includeCTA ∧ jsTrim cfg.ctaText ≠ "" then [jsTrim cfg.ctaText, ""] else []
  let l5 : List String :=
    if cfg.includeSignature ∧ jsTrim cfg.signature ≠ "" then [jsTrim cfg.signature, ""] else []
  let l6 : List String :=
    if cfg.includeHashtags ∧ jsTrim cfg.hashtags ≠ "" then [jsTrim cfg.hashtags, ""] else []
  jsTrim (String.intercalate "\n" (l1 ++ l2 ++ l3 ++ l4 ++ l5 ++ l6))

/-- The indexed `claims.forEach((c, i) => ...)` loop of the blog branch:
each claim becomes a level-2 heading, and `paragraphs[i]` — the i-th entry
of the *compacted* paragraph list — is appended beneath it when present
and truthy. -/
def blogSections : List ClaimT → List String → String
  | [], _ => ""
  | c :: cs, ps =>
    "## " ++ c.text ++ "\n\n" ++
      (match ps with
       | p :: pr => (if p ≠ "" then p ++ "\n\n" else "") ++ blogSections cs pr
       | [] => blogSections cs [])

/-- draft-builder.js `buildDraftText(baseText, state)`. -/
def buildDraftText (baseText : String) (st : DraftState) : String :=
  let profile := if st.outputProfile = "" then "linkedin" else st.outputProfile
  if profile = "email" then
    let subject :=
      if jsTrim st.linkedin.hookOverride ≠ "" then jsTrim st.linkedin.hookOverride
      else if jsTrim st.intent ≠ "" then jsTrim st.intent
      else "Quick note"
    "Subject: " ++ subject ++ "\n\n" ++ jsTrim baseText
  else if profile = "memo" then
    let title := if jsTrim st.intent ≠ "" then jsTrim st.intent else "Memo"
    let claims := getCleanClaims st.claims
    let bulletPoints :=
      if claims ≠ [] then
        String.intercalate "\n" ((claims.take 5).map (fun c => "- " ++ c.text))
      else "- "
    "TITLE\n" ++ title ++ "\n\nTL;DR\n" ++ bulletPoints ++ "\n\nDETAILS\n" ++
      jsTrim baseText ++ "\n\nNEXT STEPS\n- "
  else if profile = "xthread" then
    String.intercalate "\n\n---\n\n" (splitIntoThread baseText 280)
  else if profile = "blog" then
    let title := jsTrim st.intent
    let claims := getCleanClaims st.claims
    let paragraphs := getCleanParagraphs claims st.expressions
    let head := if title ≠ "" then "# " ++ title ++ "\n\n" else ""
    let body :=
      if paragraphs ≠ [] ∧ claims ≠ [] then blogSections claims paragraphs
      else jsTrim baseText
    jsTrim (head ++ body)
  else baseText

/-! ## Schema validator and import boundary (schemas.js)

Zod parses are modelled as `Option JSVal`: `some` carries the parsed
(stripped, default-filled) value, `none` is a failed validation.  Error
message contents are not modelled; no verified claim inspects them. -/

/-- The zod `z.string().datetime()` format: `YYYY-MM-DDTHH:MM:SS`, an
optional fractional-seconds part, and a terminating `Z`. -/
def isZodDatetime (s : String) : Bool :=
  match s.toList with
  | y1 :: y2 :: y3 :: y4 :: '-' :: m1 :: m2 :: '-' :: d1 :: d2 :: 'T' ::
      h1 :: h2 :: ':' :: i1 :: i2 :: ':' :: s1 :: s2 :: rest =>
    [y1, y2, y3, y4, m1, m2, d1, d2, h1, h2, i1, i2, s1, s2].all Char.isDigit &&
      (match rest with
       | ['Z'] => true
       | '.' :: r =>
         !r.dropLast.isEmpty && r.dropLast.all Char.isDigit && r.getLast? = some 'Z'
       | _ => false)
  | _ => false

/-- `z.string().default(d)`. -/
def parseStrD (d : String) : JSVal → Option JSVal
  | .undef => some (.str d)
  | .str s => some (.str s)
  | _ => none

/-- `z.boolean().default(d)`. -/
def parseBoolD (d : Bool) : JSVal → Option JSVal
  | .undef => some (.bool d)
  | .bool b => some (.bool b)
  | _ => none

/-- `z.number().int().min(1).max(12).default(5)` (`maxBullets`). -/
def parseMaxBullets : JSVal → Option JSVal
  | .undef => some (.num 5)
  | .num n => if 1 ≤ n ∧ n ≤ 12 then some (.num n) else none
  | _ => none

/-- `z.enum(ks).default(d)`. -/
def parseEnumD (ks : List String) (d : String) : JSVal → Option JSVal
  | .undef => some (.str d)
  | .str s => if ks.contains s then some (.str s) else none
  | _ => none

/-- `ClaimSchema = z.object({id: z.string().min(1), text: z.string()})`;
zod strips unknown keys from the parsed object. -/
def parseClaim (v : JSVal) : Option JSVal :=
  match v with
  | .obj _ =>
    match jsGet v "id", jsGet v "text" with
    | .str i, .str t =>
      if i = "" then none else some (.obj [("id", .str i), ("text", .str t)])
    | _, _ => none
  | _ => none

/-- Element-wise parsing of an array (success only if every element
parses). -/
def mapOpt (f : JSVal → Option JSVal) : List JSVal → Option (List JSVal)
  | [] => some []
  | x :: xs =>
    match f x, mapOpt f xs with
    | some y, some ys => some (y :: ys)
    | _, _ => none

/-- `z.array(ClaimSchema).min(1)`. -/
def parseClaims : JSVal → Option JSVal
  | .arr cs =>
    if cs.isEmpty then none
    else (mapOpt parseClaim cs).map (fun l => JSVal.arr l)
  | _ => none

/-- `z.record(z.string(), z.string()).default({})` (`expressions`). -/
def parseExpressionsD : JSVal → Option JSVal
  | .undef => some (.obj [])
  | .obj fs =>
    if fs.all (fun p => match p.2 with | .str _ => true | _ => false)
    then some (.obj fs) else none
  | _ => none

/-- `UIStateSchema.default({})`. -/
def parseUiD : JSVal → Option JSVal
  | .undef => some (.obj [("presetId", .str "systems_coordination")])
  | .obj fs =>
    (parseStrD "systems_coordination" (jsGet (.obj fs) "presetId")).map
      (fun p => JSVal.obj [("presetId", p)])
  | _ => none

/-- `LinkedInConfigSchema` field-by-field (defaults as written in
schemas.js, including its mis-encoded em-dash signature default). -/
def parseLinkedInFields (v : JSVal) : Option JSVal := do
  let a1 ← parseStrD "" (jsGet v "hookOverride")
  let a2 ← parseBoolD false (jsGet v "includeBullets")
  let a3 ← parseStrD "Key points:" (jsGet v "bulletIntro")
  let a4 ← parseMaxBullets (jsGet v "maxBullets")
  let a5 ← parseBoolD true (jsGet v "includeCTA")
  let a6 ← parseStrD "What would you change?" (jsGet v "ctaText")
  let a7 ← parseBoolD false (jsGet v "includeHashtags")
  let a8 ← parseStrD "#leadership #execution #systems" (jsGet v "hashtags")
  let a9 ← parseBoolD false (jsGet v "includeSignature")
  let a10 ← parseStrD "â€” Posted via Inkwise" (jsGet v "signature")
  some (.obj
    [ ("hookOverride", a1), ("includeBullets", a2), ("bulletIntro", a3)
    , ("maxBullets", a4), ("includeCTA", a5), ("ctaText", a6)
    , ("includeHashtags", a7), ("hashtags", a8), ("includeSignature", a9)
    , ("signature", a10) ])

/-- `LinkedInConfigSchema.default({})`. -/
def parseLinkedInD : JSVal → Option JSVal
  | .undef => parseLinkedInFields (.obj [])
  | .obj fs => parseLinkedInFields (.obj fs)
  | _ => none

/-- `z.string().optional()` inside `ProjectMetadataSchema`. -/
def parseOptStr : JSVal → Option (Option JSVal)
  | .undef => some none
  | .str s => some (some (.str s))
  | _ => none

/-- `z.string().datetime().optional()` inside `ProjectMetadataSchema`. -/
def parseOptDatetime : JSVal → Option (Option JSVal)
  | .undef => some none
  | .str s => if isZodDatetime s then some (some (.str s)) else none
  | _ => none

def optField (k : String) : Option JSVal → List (String × JSVal)
  | some v => [(k, v)]
  | none => []

/-- `ProjectMetadataSchema` (all fields optional). -/
def parseMetadata (v : JSVal) : Option JSVal :=
  match v with
  | .obj _ => do
    let i ← parseOptStr (jsGet v "id")
    let t ← parseOptStr (jsGet v "title")
    let c ← parseOptDatetime (jsGet v "createdAt")
    let u ← parseOptDatetime (jsGet v "updatedAt")
    some (.obj (optField "id" i ++ optField "title" t ++
      optField "createdAt" c ++ optField "updatedAt" u))
  | _ => none

/-- `AppStateSchema.safeParse`, i.e. `parseAppState` of schemas.js. -/
def parseAppStateV (v : JSVal) : Option JSVal :=
  match v with
  | .obj _ => do
    let ph ← parseEnumD validPhases "intent" (jsGet v "phase")
    let it ← parseStrD "" (jsGet v "intent")
    let cl ← parseClaims (jsGet v "claims")
    let ex ← parseExpressionsD (jsGet v "expressions")
    let op ← parseEnumD profileKeys "linkedin" (jsGet v "outputProfile")
    let ui ← parseUiD (jsGet v "ui")
    let lk ← parseLinkedInD (jsGet v "linkedin")
    let md ← (match jsGet v "metadata" with
              | .undef => some none
              | mv => (parseMetadata mv).map some)
    some (.obj
      ([ ("phase", ph), ("intent", it), ("claims", cl), ("expressions", ex)
       , ("outputProfile", op), ("ui", ui), ("linkedin", lk) ] ++
       (match md with | some m => [("metadata", m)] | none => [])))
  | _ => none

/-- `SessionExportSchema.safeParse`, i.e. `parseSessionExport`. -/
def parseSessionExport (v : JSVal) : Option JSVal :=
  match v with
  | .obj _ => do
    let ver ← (match jsGet v "version" with
               | .str s => if strStarts s sessionTag then some (JSVal.str s) else none
               | _ => none)
    let ea ← (match jsGet v "exportedAt" with
              | .str s => if isZodDatetime s then some (JSVal.str s) else none
              | _ => none)
    let st ← parseAppStateV (jsGet v "state")
    some (.obj [("version", ver), ("exportedAt", ea), ("state", st)])
  | _ => none

/-- The raw-state fall-through of `extractStateFromImport`: try the data
itself as a state, then a nested `state` property, else fail. -/
def importRawPath (data : JSVal) : Option JSVal :=
  match parseAppStateV data with
  | some w => some w
  | none =>
    let st := jsGet data "state"
    if st.truthyB && st.isObjTypeB then parseAppStateV st else none

/-- schemas.js `extractStateFromImport(data)`; `none` models the
`{success: false, error}` return values. -/
def extractStateFromImport (data : JSVal) : Option JSVal :=
  if data.truthyB && data.isObjTypeB then
    match jsGet data "version" with
    | .str vs =>
      if strStarts vs sessionTag then
        match parseSessionExport data with
        | some ex => some (jsGet ex "state")
        | none =>
          let st := jsGet data "state"
          if st.truthyB && st.isObjTypeB then parseAppStateV st
          else none
      else importRawPath data
    | _ => importRawPath data
  else none

/-- schemas.js `createSessionExport(state)`; the `new Date().toISOString()`
timestamp is injected for determinism. -/
def createSessionExport (now : String) (state : JSVal) : JSVal :=
  .obj [("version", .str "inkwise:session:v1"), ("exportedAt", .str now), ("state", state)]

mutual

/-- `JSON.parse(JSON.stringify(v))`: object entries holding `undefined`
are dropped, array entries holding `undefined` become `null`. -/
def jround : JSVal → JSVal
  | .null => .null
  | .undef => .undef
  | .bool b => .bool b
  | .num n => .num n
  | .str s => .str s
  | .arr xs => .arr (jroundArr xs)
  | .obj fs => .obj (jroundObj fs)

def jroundArr : List JSVal → List JSVal
  | [] => []
  | x :: xs =>
    (match x with
     | .undef => JSVal.null
     | v => jround v) :: jroundArr xs

def jroundObj : List (String × JSVal) → List (String × JSVal)
  | [] => []
  | (k, v) :: fs =>
    match v with
    | .undef => jroundObj fs
    | w => (k, jround w) :: jroundObj fs

end

/-! ## Concrete instances used by the verification -/

/-- The trimmed expression belonging to one claim (before the compacting
filter of `getCleanParagraphs`). -/
def claimExprE (es : List (String × JSVal)) (c : ClaimT) : String :=
  match exprLookup es c.id with
  | .str s => jsTrim s
  | _ => ""

/-- A deterministic id generator of the kind `sanitizeAndMergeState`
accepts for testing. -/
def genW : Nat → String := fun _ => "w"

/-- A nested session envelope: an export whose `state` payload itself
carries `version` and `state` fields. -/
def nestedEnvelope : JSVal := .obj
  [ ("version", .str "inkwise:session:v1")
  , ("state", .obj
      [ ("version", .str "inkwise:session:v1")
      , ("state", .obj [])
      , ("intent", .str "A") ]) ]

/-- A canonical state that is also a fixed point of the strict schema. -/
def schemaCanonicalState : JSVal := .obj
  [ ("phase", .str "intent"), ("intent", .str "")
  , ("claims", .arr [.obj [("id", .str "c1"), ("text", .str "")]])
  , ("expressions", .obj []), ("outputProfile", .str "linkedin")
  , ("ui", .obj [("presetId", .str "systems_coordination")])
  , ("linkedin", .obj
      [ ("hookOverride", .str ""), ("includeBullets", .bool false)
      , ("bulletIntro", .str "Key points:"), ("maxBullets", .num 5)
      , ("includeCTA", .bool true), ("ctaText", .str "What would you change?")
      , ("includeHashtags", .bool false)
      , ("hashtags", .str "#leadership #execution #systems")
      , ("includeSignature", .bool false)
      , ("signature", .str "â€” Posted via Inkwise") ]) ]

/-- A canonical sanitizer output that retains a non-string expression
value, which the strict schema rejects. -/
def badExprCanonical : JSVal :=
  sanitizeAndMergeState genW (.obj [("expressions", .obj [("a", .num 5)])])

/-- The composer scenario of the spec's concrete case 3: intent "Ship it",
one claim "Be bold", no expressions, `includeBullets` off, every other
setting at its default. -/
def shipItState : DraftState :=
  { intent := "Ship it"
  , claims := [{ id := "c1", text := "Be bold" }]
  , expressions := []
  , outputProfile := "linkedin"
  , linkedin := { defaultLinkedInCfg with includeBullets := false } }

/-- A blog state in which the first clean claim has no expression and the
second does. -/
def blogMisState : DraftState :=
  { intent := ""
  , claims := [{ id := "a", text := "One" }, { id := "b", text := "Two" }]
  , expressions := [("b", .str "Expr B")]
  , outputProfile := "blog"
  , linkedin := defaultLinkedInCfg }

/-- A blog state in which every clean claim has a matching expression. -/
def blogGoodState : DraftState :=
  { intent := "T"
  , claims := [{ id := "a", text := "One" }, { id := "b", text := "Two" }]
  , expressions := [("a", .str "EA"), ("b", .str "EB")]
  , outputProfile := "blog"
  , linkedin := defaultLinkedInCfg }

/-- Shape of every claim emitted by the repair loop: a two-field object
whose id is truthy and whose text is a string. -/
def claimGood (c : JSVal) : Prop :=
  ∃ idv t, c = JSVal.obj [("id", idv), ("text", .str t)] ∧ idv.truthyB = true

/-- `fs` is "aligned" over `base`: its first `base.length` keys are exactly
the keys of `base`, in order, and its keys are duplicate-free.  Spreading
`base` under an aligned list is the identity. -/
def Align (base fs : List (String × JSVal)) : Prop :=
  (keys fs).take base.length = keys base ∧ (keys fs).Nodup

/-! ## Lemmas about object field lists -/

theorem keys_append (a b : List (String × JSVal)) :
    keys (a ++ b) = keys a ++ keys b := by
  simp [keys]

theorem getF_eq_none_of_not_mem {fs : List (String × JSVal)} {k : String}
    (h : k ∉ keys fs) : getF fs k = none := by
  induction fs with
  | nil => rfl
  | cons p rest ih =>
    simp only [keys, List.map_cons, List.mem_cons, not_or] at h
    rw [getF, if_neg (fun e => h.1 e.symm)]
    exact ih h.2

theorem getLast_eq_none_of_not_mem {fs : List (String × JSVal)} {k : String}
    (h : k ∉ keys fs) : getLast? fs k = none := by
  induction fs with
  | nil => rfl
  | cons p rest ih =>
    simp only [keys, List.map_cons, List.mem_cons, not_or] at h
    rw [getLast?, ih h.2, if_neg (fun e => h.1 e.symm)]

theorem getLast_eq_getF_of_nodup {fs : List (String × JSVal)} {k : String}
    (h : (keys fs).Nodup) : getLast? fs k = getF fs k := by
  induction fs with
  | nil => rfl
  | cons p rest ih =>
    simp only [keys, List.map_cons, List.nodup_cons] at h
    by_cases hp : p.1 = k
    · have : getLast? rest k = none :=
        getLast_eq_none_of_not_mem (by rw [← hp] at *; exact h.1)
      rw [getLast?, this, if_pos hp, getF, if_pos hp]
    · rw [getLast?, ih h.2]
      cases hg : getF rest k with
      | some v => simp [getF, hg, hp]
      | none => simp [getF, hg, hp]

theorem getF_append_chain (a b : List (String × JSVal)) (k : String) :
    getF (a ++ b) k =
      match getF a k with
      | some v => some v
      | none => getF b k := by
  induction a with
  | nil => rfl
  | cons p rest ih =>
    by_cases hp : p.1 = k
    · simp [getF, hp]
    · simp only [List.cons_append, getF, if_neg hp]
      exact ih

theorem getF_mapSet_self {fs : List (String × JSVal)} {k : String} (v : JSVal)
    (h : k ∈ keys fs) :
    getF (fs.map (fun p => if p.1 = k then (k, v) else p)) k = some v := by
  induction fs with
  | nil => simp [keys] at h
  | cons p rest ih =>
    by_cases hp : p.1 = k
    · simp [getF, hp]
    · simp only [List.map_cons, if_neg hp, getF]
      have h2 : k ∈ keys rest := by
        simp only [keys, List.map_cons, List.mem_cons] at h
        rcases h with h | h
        · exact absurd h.symm hp
        · exact h
      exact ih h2

theorem getF_mapSet_ne {fs : List (String × JSVal)} {k k' : String} (v : JSVal)
    (h : k' ≠ k) :
    getF (fs.map (fun p => if p.1 = k then (k, v) else p)) k' = getF fs k' := by
  induction fs with
  | nil => rfl
  | cons p rest ih =>
    by_cases hp : p.1 = k
    · simp only [List.map_cons, if_pos hp, getF]
      rw [if_neg (fun e => h e.symm), if_neg (fun e => h (hp ▸ e).symm), ih]
    · simp only [List.map_cons, if_neg hp, getF]
      by_cases hq : p.1 = k'
      · rw [if_pos hq, if_pos hq]
      · rw [if_neg hq, if_neg hq, ih]

theorem getF_objSet_self (fs : List (String × JSVal)) (k : String) (v : JSVal) :
    getF (objSet fs k v) k = some v := by
  by_cases h : k ∈ keys fs
  · rw [objSet, if_pos h]
    exact getF_mapSet_self v h
  · rw [objSet, if_neg h, getF_append_chain, getF_eq_none_of_not_mem h]
    simp [getF]

theorem getF_objSet_ne (fs : List (String × JSVal)) {k k' : String} (v : JSVal)
    (h : k' ≠ k) : getF (objSet fs k v) k' = getF fs k' := by
  by_cases hm : k ∈ keys fs
  · rw [objSet, if_pos hm]
    exact getF_mapSet_ne v h
  · rw [objSet, if_neg hm, getF_append_chain]
    cases hg : getF fs k' with
    | some w => rfl
    | none =>
      have hne : ¬k = k' := fun e => h e.symm
      simp [getF, hne]

theorem keys_objSet_of_mem {fs : List (String × JSVal)} {k : String} (v : JSVal)
    (h : k ∈ keys fs) : keys (objSet fs k v) = keys fs := by
  rw [objSet, if_pos h]
  simp only [keys, List.map_map]
  apply List.map_congr_left
  intro p _
  by_cases hp : p.1 = k
  · simp [hp]
  · simp [hp]

theorem keys_objSet_of_not_mem {fs : List (String × JSVal)} {k : String} (v : JSVal)
    (h : k ∉ keys fs) : keys (objSet fs k v) = keys fs ++ [k] := by
  rw [objSet, if_neg h, keys_append]
  rfl

theorem mapSet_id_of_not_mem {fs : List (String × JSVal)} {k : String} {v : JSVal}
    (h : k ∉ keys fs) : fs.map (fun q => if q.1 = k then (k, v) else q) = fs := by
  induction fs with
  | nil => rfl
  | cons p rest ih =>
    simp only [keys, List.map_cons, List.mem_cons, not_or] at h
    simp only [List.map_cons]
    rw [if_neg (fun e => h.1 e.symm), ih h.2]

theorem objSet_same {k : String} {v : JSVal} :
    ∀ {fs : List (String × JSVal)}, (keys fs).Nodup → getF fs k = some v →
      objSet fs k v = fs := by
  intro fs hnd h
  have hm : k ∈ keys fs := by
    by_contra hc
    rw [getF_eq_none_of_not_mem hc] at h
    exact Option.noConfusion h
  rw [objSet, if_pos hm]
  clear hm
  induction fs with
  | nil => rfl
  | cons p rest ih =>
    obtain ⟨a, b⟩ := p
    simp only [keys, List.map_cons, List.nodup_cons] at hnd
    by_cases hp : a = k
    · subst hp
      simp only [getF, if_pos] at h
      injection h with hv
      subst hv
      simp only [List.map_cons, if_pos]
      rw [mapSet_id_of_not_mem hnd.1]
    · rw [getF] at h
      simp only [if_neg hp] at h
      simp only [List.map_cons, if_neg hp]
      rw [ih hnd.2 h]

theorem spreadInto_cons (base : List (String × JSVal)) (p : String × JSVal)
    (E : List (String × JSVal)) :
    spreadInto base (p :: E) = spreadInto (objSet base p.1 p.2) E := rfl

theorem getF_spread (base E : List (String × JSVal)) (k : String) :
    getF (spreadInto base E) k =
      match getLast? E k with
      | some v => some v
      | none => getF base k := by
  induction E generalizing base with
  | nil => rfl
  | cons p E ih =>
    rw [spreadInto_cons, ih]
    cases hE : getLast? E k with
    | some v => simp [getLast?, hE]
    | none =>
      simp only [getLast?, hE]
      by_cases hp : p.1 = k
      · rw [if_pos hp, ← hp, getF_objSet_self]
      · rw [if_neg hp, getF_objSet_ne _ _ (fun e => hp e.symm)]

theorem align_len {base fs : List (String × JSVal)} (h : Align base fs) :
    base.length ≤ fs.length := by
  have := congrArg List.length h.1
  simp only [List.length_take, keys, List.length_map] at this
  omega

theorem align_objSet {base fs : List (String × JSVal)} {k : String} (v : JSVal)
    (h : Align base fs) (hk : k ∈ keys base) : Align base (objSet fs k v) := by
  have hkfs : k ∈ keys fs := by
    rw [← h.1] at hk
    exact List.mem_of_mem_take hk
  constructor
  · rw [keys_objSet_of_mem v hkfs]
    exact h.1
  · rw [keys_objSet_of_mem v hkfs]
    exact h.2

theorem align_rfl {base : List (String × JSVal)} (hnd : (keys base).Nodup) :
    Align base base := by
  constructor
  · rw [List.take_of_length_le]
    simp [keys]
  · exact hnd

theorem align_objSet_any {base fs : List (String × JSVal)} (p : String × JSVal)
    (h : Align base fs) : Align base (objSet fs p.1 p.2) := by
  by_cases hm : p.1 ∈ keys fs
  · constructor
    · rw [keys_objSet_of_mem p.2 hm]; exact h.1
    · rw [keys_objSet_of_mem p.2 hm]; exact h.2
  · have hlen : base.length ≤ (keys fs).length := by
      have := align_len h
      simpa [keys] using this
    constructor
    · rw [keys_objSet_of_not_mem p.2 hm, List.take_append_of_le_length hlen]
      exact h.1
    · rw [keys_objSet_of_not_mem p.2 hm]
      simp only [List.nodup_append, List.nodup_cons, List.nodup_nil]
      refine ⟨h.2, by simp, ?_⟩
      intro a ha hb
      simp only [List.mem_singleton] at hb
      exact hm (hb ▸ ha)

theorem align_spread {base : List (String × JSVal)}
    (hnd : (keys base).Nodup) (E : List (String × JSVal)) :
    Align base (spreadInto base E) := by
  suffices hgen : ∀ (E : List (String × JSVal)) (acc : List (String × JSVal)),
      Align base acc → Align base (spreadInto acc E) from
    hgen E base (align_rfl hnd)
  intro E
  induction E with
  | nil => intro acc h; exact h
  | cons p E ih =>
    intro acc h
    rw [spreadInto_cons]
    exact ih _ (align_objSet_any p h)

theorem spread_nodup_disjoint :
    ∀ (F2 acc : List (String × JSVal)),
      (∀ k ∈ keys F2, k ∉ keys acc) → (keys F2).Nodup →
      spreadInto acc F2 = acc ++ F2 := by
  intro F2
  induction F2 with
  | nil => intro acc _ _; simp [spreadInto]
  | cons p F2 ih =>
    intro acc hdis hnd
    have hp : p.1 ∉ keys acc := hdis p.1 (by simp [keys])
    rw [spreadInto_cons, objSet, if_neg hp]
    simp only [keys, List.map_cons, List.nodup_cons] at hnd
    have hd2 : ∀ k ∈ keys F2, k ∉ keys (acc ++ [p]) := by
      intro k hk
      rw [keys_append]
      simp only [List.mem_append, not_or]
      refine ⟨hdis k (List.mem_cons_of_mem _ hk), ?_⟩
      simp only [keys, List.map_cons, List.map_nil, List.mem_singleton]
      intro e
      exact hnd.1 (e ▸ hk)
    rw [ih (acc ++ [p]) hd2 hnd.2]
    simp

theorem spread_pointwise :
    ∀ (F1 done base1 : List (String × JSVal)),
      keys F1 = keys base1 → (keys (done ++ base1)).Nodup →
      spreadInto (done ++ base1) F1 = done ++ F1 := by
  intro F1
  induction F1 with
  | nil =>
    intro done base1 hk _
    have : base1 = [] := by
      cases base1 with
      | nil => rfl
      | cons q b => exact absurd hk (by simp [keys])
    subst this
    simp [spreadInto]
  | cons p F1 ih =>
    intro done base1 hk hnd
    cases base1 with
    | nil => exact absurd hk (by simp [keys])
    | cons q base1 =>
      simp only [keys, List.map_cons] at hk
      injection hk with hk1 hk2
      rw [keys_append] at hnd
      have hnd' := hnd
      simp only [keys, List.map_cons, List.nodup_append, List.nodup_cons] at hnd
      have hqdone : q.1 ∉ keys done := by
        intro hmem
        exact hnd.2.2 hmem (by simp)
      have hqbase : q.1 ∉ keys base1 := hnd.2.1.1
      have hmem : p.1 ∈ keys (done ++ q :: base1) := by
        rw [keys_append]
        simp [keys, ← hk1]
      rw [spreadInto_cons, objSet, if_pos hmem]
      have hmap : (done ++ q :: base1).map (fun r => if r.1 = p.1 then (p.1, p.2) else r) =
          done ++ (p.1, p.2) :: base1 := by
        rw [List.map_append, List.map_cons]
        have e1 : done.map (fun r => if r.1 = p.1 then (p.1, p.2) else r) = done := by
          apply mapSet_id_of_not_mem
          rw [hk1]; exact hqdone
        have e2 : base1.map (fun r => if r.1 = p.1 then (p.1, p.2) else r) = base1 := by
          apply mapSet_id_of_not_mem
          rw [hk1]; exact hqbase
        rw [e1, e2, if_pos hk1.symm]
      rw [hmap]
      have : done ++ (p.1, p.2) :: base1 = (done ++ [(p.1, p.2)]) ++ base1 := by simp
      rw [this, ih (done ++ [(p.1, p.2)]) base1 hk2 ?hnd2]
      · simp
      case hnd2 =>
        have e3 : keys (done ++ [(p.1, p.2)] ++ base1) = keys done ++ q.1 :: keys base1 := by
          simp [keys, hk1]
        rw [e3]
        exact hnd'

theorem spread_absorb {base fs : List (String × JSVal)} (h : Align base fs) :
    spreadInto base fs = fs := by
  have hsplit : fs = fs.take base.length ++ fs.drop base.length :=
    (List.take_append_drop _ _).symm
  have hk1 : keys (fs.take base.length) = keys base := by
    rw [keys, List.map_take, ← keys]
    exact h.1
  have hnd : (keys (fs.take base.length ++ fs.drop base.length)).Nodup := by
    rw [← hsplit]; exact h.2
  rw [keys_append] at hnd
  have hndL : (keys (fs.take base.length)).Nodup := (List.nodup_append.mp hnd).1
  have hndR : (keys (fs.drop base.length)).Nodup := (List.nodup_append.mp hnd).2.1
  have hdisj : ∀ k ∈ keys (fs.drop base.length), k ∉ keys (fs.take base.length) := by
    intro k hk hmem
    exact (List.nodup_append.mp hnd).2.2 hmem hk
  conv_lhs => rw [hsplit]
  rw [spreadInto, List.foldl_append, ← spreadInto, ← spreadInto]
  have e1 : spreadInto base (fs.take base.length) = fs.take base.length := by
    have := spread_pointwise (fs.take base.length) [] base hk1 ?h2
    · simpa using this
    case h2 => simpa [hk1] using hndL
  rw [e1]
  rw [spread_nodup_disjoint _ _ hdisj hndR, ← hsplit]

/-! ## Lemmas about the sanitizer -/

theorem jsGet_obj (fs : List (String × JSVal)) (k : String) :
    jsGet (.obj fs) k = (getF fs k).getD .undef := rfl

theorem truthy_str_ne {s : String} (h : s ≠ "") : (JSVal.str s).truthyB = true := by
  simp [JSVal.truthyB, h]

theorem truthy_ne_empty {v : JSVal} (h : v.truthyB = true) : v ≠ .str "" := by
  intro e
  subst e
  simp [JSVal.truthyB] at h

theorem claimTextOf_shape (c : JSVal) : ∃ t, claimTextOf c = .str t := by
  rw [claimTextOf]
  by_cases h : c.truthyB = true
  · rw [if_pos h]
    cases jsGet c "text" <;> exact ⟨_, rfl⟩
  · rw [if_neg h]
    exact ⟨"", rfl⟩

theorem sanitizeClaims_good {g : Nat → String} (hg : ∀ n, g n ≠ "") :
    ∀ (cs : List JSVal) (n : Nat) (c : JSVal),
      c ∈ sanitizeClaims g n cs → claimGood c := by
  intro cs
  induction cs with
  | nil => intro n c hc; simp [sanitizeClaims] at hc
  | cons c0 cs ih =>
    intro n c hc
    rw [sanitizeClaims] at hc
    rcases List.mem_cons.mp hc with e | hmem
    · subst e
      obtain ⟨t, ht⟩ := claimTextOf_shape c0
      refine ⟨claimIdOf g n c0, t, by rw [ht], ?_⟩
      rw [claimIdOf]
      by_cases hk : (c0.truthyB && (jsGet c0 "id").truthyB) = true
      · rw [if_pos hk]
        exact (Bool.and_eq_true_iff.mp hk).2
      · rw [if_neg hk]
        exact truthy_str_ne (hg n)
    · exact ih _ c hmem

theorem sanitizeClaims_fixed {g : Nat → String} :
    ∀ (cs : List JSVal) (n : Nat), (∀ c ∈ cs, claimGood c) →
      sanitizeClaims g n cs = cs := by
  intro cs
  induction cs with
  | nil => intro n _; rfl
  | cons c0 cs ih =>
    intro n h
    obtain ⟨idv, t, he, hid⟩ := h c0 (by simp)
    subst he
    have h1 : (JSVal.obj [("id", idv), ("text", JSVal.str t)]).truthyB = true := rfl
    have h2 : jsGet (JSVal.obj [("id", idv), ("text", JSVal.str t)]) "id" = idv := by
      simp [jsGet, getF]
    have h3 : jsGet (JSVal.obj [("id", idv), ("text", JSVal.str t)]) "text" = .str t := by
      simp [jsGet, getF]
    rw [sanitizeClaims, claimIdOf, claimTextOf]
    rw [h1, h2, h3, hid]
    simp only [Bool.and_self, if_true, if_pos]
    congr 1
    exact ih n (fun c hc => h c (List.mem_cons_of_mem _ hc))

theorem sanitizeClaims_len (g : Nat → String) :
    ∀ (cs : List JSVal) (n : Nat), (sanitizeClaims g n cs).length = cs.length := by
  intro cs
  induction cs with
  | nil => intro n; rfl
  | cons c0 cs ih => intro n; simp [sanitizeClaims, ih]

theorem mergedFields_eq (g : Nat → String) (c : JSVal) :
    mergedFields g c =
      fixProfile (fixPhase
        (objSet (objSet (objSet (objSet (objSet
          (spreadInto defaultStateFields (enumFields (parsedOf c)))
          "intent" (sanIntent (parsedOf c)))
          "claims" (.arr (sanitizeClaims g 0 (sanClaimsRaw (parsedOf c)))))
          "expressions" (sanExpressions (parsedOf c)))
          "ui" (sanUi (parsedOf c)))
          "linkedin" (sanLinkedin (parsedOf c)))) := rfl

theorem getF_fixPhase_ne (m : List (String × JSVal)) {k : String}
    (h : k ≠ "phase") : getF (fixPhase m) k = getF m k := by
  rw [fixPhase]
  split
  · split
    · rfl
    · exact getF_objSet_ne _ _ h
  · exact getF_objSet_ne _ _ h

theorem getF_fixProfile_ne (m : List (String × JSVal)) {k : String}
    (h : k ≠ "outputProfile") : getF (fixProfile m) k = getF m k := by
  rw [fixProfile]
  split
  · rfl
  · exact getF_objSet_ne _ _ h

theorem getF_merged_linkedin (g : Nat → String) (c : JSVal) :
    getF (mergedFields g c) "linkedin" = some (sanLinkedin (parsedOf c)) := by
  rw [mergedFields_eq, getF_fixProfile_ne _ (by decide), getF_fixPhase_ne _ (by decide),
    getF_objSet_self]

theorem getF_merged_ui (g : Nat → String) (c : JSVal) :
    getF (mergedFields g c) "ui" = some (sanUi (parsedOf c)) := by
  rw [mergedFields_eq, getF_fixProfile_ne _ (by decide), getF_fixPhase_ne _ (by decide),
    getF_objSet_ne _ _ (by decide), getF_objSet_self]

theorem getF_merged_expressions (g : Nat → String) (c : JSVal) :
    getF (mergedFields g c) "expressions" = some (sanExpressions (parsedOf c)) := by
  rw [mergedFields_eq, getF_fixProfile_ne _ (by decide), getF_fixPhase_ne _ (by decide),
    getF_objSet_ne _ _ (by decide), getF_objSet_ne _ _ (by decide), getF_objSet_self]

theorem getF_merged_claims (g : Nat → String) (c : JSVal) :
    getF (mergedFields g c) "claims" =
      some (.arr (sanitizeClaims g 0 (sanClaimsRaw (parsedOf c)))) := by
  rw [mergedFields_eq, getF_fixProfile_ne _ (by decide), getF_fixPhase_ne _ (by decide),
    getF_objSet_ne _ _ (by decide), getF_objSet_ne _ _ (by decide),
    getF_objSet_ne _ _ (by decide), getF_objSet_self]

theorem getF_merged_intent (g : Nat → String) (c : JSVal) :
    getF (mergedFields g c) "intent" = some (sanIntent (parsedOf c)) := by
  rw [mergedFields_eq, getF_fixProfile_ne _ (by decide), getF_fixPhase_ne _ (by decide),
    getF_objSet_ne _ _ (by decide), getF_objSet_ne _ _ (by decide),
    getF_objSet_ne _ _ (by decide), getF_objSet_ne _ _ (by decide), getF_objSet_self]

theorem align_fixPhase {m : List (String × JSVal)}
    (h : Align defaultStateFields m) : Align defaultStateFields (fixPhase m) := by
  rw [fixPhase]
  split
  · split
    · exact h
    · exact align_objSet _ h (by decide)
  · exact align_objSet _ h (by decide)

theorem align_fixProfile {m : List (String × JSVal)}
    (h : Align defaultStateFields m) : Align defaultStateFields (fixProfile m) := by
  rw [fixProfile]
  split
  · exact h
  · exact align_objSet _ h (by decide)

theorem align_merged (g : Nat → String) (c : JSVal) :
    Align defaultStateFields (mergedFields g c) := by
  rw [mergedFields_eq]
  exact align_fixProfile (align_fixPhase
    (align_objSet _ (align_objSet _ (align_objSet _ (align_objSet _ (align_objSet _
      (align_spread (by decide) _) (by decide)) (by decide)) (by decide)) (by decide))
      (by decide)))

theorem merged_phase (g : Nat → String) (c : JSVal) :
    ∃ s, getF (mergedFields g c) "phase" = some (JSVal.str s) ∧
      validPhases.contains s = true := by
  rw [mergedFields_eq, getF_fixProfile_ne _ (by decide)]
  rw [fixPhase]
  split
  case _ s heq =>
    split
    case _ hv => exact ⟨s, heq, hv⟩
    case _ hv => exact ⟨"intent", getF_objSet_self _ _ _, by decide⟩
  case _ => exact ⟨"intent", getF_objSet_self _ _ _, by decide⟩

theorem merged_profile (g : Nat → String) (c : JSVal) :
    profileKeys.contains
      (jsToString ((getF (mergedFields g c) "outputProfile").getD .undef)) = true := by
  rw [mergedFields_eq, fixProfile]
  split
  case _ h => exact h
  case _ h =>
    rw [getF_objSet_self]
    decide

theorem sanIntent_shape (p : JSVal) : ∃ s, sanIntent p = .str s := by
  rw [sanIntent]
  cases jsGet p "intent" <;> exact ⟨_, rfl⟩

theorem sanExpressions_shape (p : JSVal) : ∃ fs, sanExpressions p = .obj fs := by
  rw [sanExpressions]
  cases jsGet p "expressions" <;> exact ⟨_, rfl⟩

theorem sanClaimsRaw_ne_nil (p : JSVal) : sanClaimsRaw p ≠ [] := by
  rw [sanClaimsRaw]
  cases hg : jsGet p "claims" with
  | arr cs =>
    by_cases he : cs.isEmpty
    · simp [he]
    · simp only [if_neg he]
      intro e
      rw [e] at he
      exact he rfl
  | null => simp
  | undef => simp
  | bool b => simp
  | num n => simp
  | str s => simp
  | obj fs => simp

theorem clampInt_bounds (v : JSVal) :
    1 ≤ clampInt v 1 12 5 ∧ clampInt v 1 12 5 ≤ 12 := by
  rw [clampInt]
  cases parseIntJS v with
  | none => exact ⟨by norm_num, by norm_num⟩
  | some n => exact ⟨le_max_left 1 _, max_le (by norm_num) (min_le_left 12 n)⟩

theorem clampInt_num_fix {b : Int} (h1 : 1 ≤ b) (h2 : b ≤ 12) :
    clampInt (.num b) 1 12 5 = b := by
  rw [clampInt]
  show max 1 (min 12 b) = b
  omega

theorem parsedOf_obj (fs : List (String × JSVal)) : parsedOf (.obj fs) = .obj fs := rfl

theorem sanIntent_idem (g : Nat → String) (c : JSVal) :
    sanIntent (JSVal.obj (mergedFields g c)) = sanIntent (parsedOf c) := by
  obtain ⟨s, hs⟩ := sanIntent_shape (parsedOf c)
  rw [sanIntent, jsGet_obj, getF_merged_intent, hs]
  rfl

theorem sanExpressions_idem (g : Nat → String) (c : JSVal) :
    sanExpressions (JSVal.obj (mergedFields g c)) = sanExpressions (parsedOf c) := by
  obtain ⟨fs, hf⟩ := sanExpressions_shape (parsedOf c)
  rw [sanExpressions, jsGet_obj, getF_merged_expressions, hf]
  rfl

theorem sanClaimsRaw_idem (g : Nat → String) (c : JSVal) :
    sanClaimsRaw (JSVal.obj (mergedFields g c)) =
      sanitizeClaims g 0 (sanClaimsRaw (parsedOf c)) := by
  rw [sanClaimsRaw, jsGet_obj, getF_merged_claims]
  cases hCL : sanitizeClaims g 0 (sanClaimsRaw (parsedOf c)) with
  | nil =>
    have hlen := sanitizeClaims_len g (sanClaimsRaw (parsedOf c)) 0
    rw [hCL] at hlen
    exact absurd (List.length_eq_zero.mp hlen.symm) (sanClaimsRaw_ne_nil _)
  | cons a as => rfl

theorem sanUi_idem (g : Nat → String) (c : JSVal) :
    sanUi (JSVal.obj (mergedFields g c)) = sanUi (parsedOf c) := by
  rw [show sanUi (JSVal.obj (mergedFields g c)) =
    JSVal.obj (spreadInto defaultUiFields
      (objFieldsOf (jsGet (JSVal.obj (mergedFields g c)) "ui"))) from rfl]
  rw [jsGet_obj, getF_merged_ui]
  rw [show (some (sanUi (parsedOf c))).getD JSVal.undef = sanUi (parsedOf c) from rfl]
  rw [show sanUi (parsedOf c) =
    JSVal.obj (spreadInto defaultUiFields (objFieldsOf (jsGet (parsedOf c) "ui"))) from rfl]
  rw [show objFieldsOf (JSVal.obj (spreadInto defaultUiFields
    (objFieldsOf (jsGet (parsedOf c) "ui")))) =
    spreadInto defaultUiFields (objFieldsOf (jsGet (parsedOf c) "ui")) from rfl]
  congr 1
  exact spread_absorb (align_spread (by decide) _)

theorem align_sanLinkedin (p : JSVal) :
    Align defaultLinkedinFields
      (objSet (sanLinkedinRaw p) "maxBullets"
        (.num (clampInt ((getF (sanLinkedinRaw p) "maxBullets").getD .undef) 1 12 5))) := by
  apply align_objSet
  · exact align_spread (by decide) _
  · decide

theorem sanLinkedin_idem (g : Nat → String) (c : JSVal) :
    sanLinkedin (JSVal.obj (mergedFields g c)) = sanLinkedin (parsedOf c) := by
  have halignL := align_sanLinkedin (parsedOf c)
  have hraw : sanLinkedinRaw (JSVal.obj (mergedFields g c)) =
      objSet (sanLinkedinRaw (parsedOf c)) "maxBullets"
        (.num (clampInt ((getF (sanLinkedinRaw (parsedOf c)) "maxBullets").getD .undef)
          1 12 5)) := by
    rw [sanLinkedinRaw, jsGet_obj, getF_merged_linkedin]
    rw [show (some (sanLinkedin (parsedOf c))).getD JSVal.undef =
      sanLinkedin (parsedOf c) from rfl]
    rw [show objFieldsOf (sanLinkedin (parsedOf c)) =
      objSet (sanLinkedinRaw (parsedOf c)) "maxBullets"
        (.num (clampInt ((getF (sanLinkedinRaw (parsedOf c)) "maxBullets").getD .undef)
          1 12 5)) from rfl]
    exact spread_absorb halignL
  have hget : getF (objSet (sanLinkedinRaw (parsedOf c)) "maxBullets"
      (.num (clampInt ((getF (sanLinkedinRaw (parsedOf c)) "maxBullets").getD .undef)
        1 12 5))) "maxBullets" =
      some (.num (clampInt ((getF (sanLinkedinRaw (parsedOf c)) "maxBullets").getD .undef)
        1 12 5)) := getF_objSet_self _ _ _
  have hb := clampInt_bounds ((getF (sanLinkedinRaw (parsedOf c)) "maxBullets").getD .undef)
  rw [sanLinkedin, hraw, hget]
  rw [show (some (JSVal.num (clampInt ((getF (sanLinkedinRaw (parsedOf c))
    "maxBullets").getD .undef) 1 12 5))).getD JSVal.undef =
    JSVal.num (clampInt ((getF (sanLinkedinRaw (parsedOf c)) "maxBullets").getD .undef)
      1 12 5) from rfl]
  rw [clampInt_num_fix hb.1 hb.2]
  rw [objSet_same halignL.2 hget]
  rfl

theorem fixPhase_merged (g : Nat → String) (c : JSVal) :
    fixPhase (mergedFields g c) = mergedFields g c := by
  obtain ⟨s, hs, hv⟩ := merged_phase g c
  rw [fixPhase, hs]
  show (if validPhases.contains s then mergedFields g c
    else objSet (mergedFields g c) "phase" (.str "intent")) = mergedFields g c
  rw [if_pos hv]

theorem fixProfile_merged (g : Nat → String) (c : JSVal) :
    fixProfile (mergedFields g c) = mergedFields g c := by
  have h := merged_profile g c
  rw [fixProfile, if_pos h]

/-- The core of `sanitizeAndMergeState` is idempotent (given an id
generator that never produces an empty id): re-sanitizing a sanitized
state changes nothing, provided the output is fed back in directly (the
envelope unwrap is outside this lemma). -/
theorem mergedFields_idem {g : Nat → String} (hg : ∀ n, g n ≠ "") (c : JSVal) :
    mergedFields g (JSVal.obj (mergedFields g c)) = mergedFields g c := by
  have halign := align_merged g c
  have hnd : (keys (mergedFields g c)).Nodup := halign.2
  rw [mergedFields_eq g (JSVal.obj (mergedFields g c)), parsedOf_obj]
  rw [show enumFields (JSVal.obj (mergedFields g c)) = mergedFields g c from rfl]
  rw [spread_absorb halign]
  rw [sanIntent_idem, sanExpressions_idem, sanUi_idem, sanLinkedin_idem]
  rw [sanClaimsRaw_idem]
  rw [sanitizeClaims_fixed _ 0 (fun cl hc => sanitizeClaims_good hg _ _ cl hc)]
  rw [objSet_same hnd (getF_merged_intent g c)]
  rw [objSet_same hnd (getF_merged_claims g c)]
  rw [objSet_same hnd (getF_merged_expressions g c)]
  rw [objSet_same hnd (getF_merged_ui g c)]
  rw [objSet_same hnd (getF_merged_linkedin g c)]
  rw [fixPhase_merged, fixProfile_merged]

theorem genW_ne (n : Nat) : genW n ≠ "" := by
  intro h
  simp [genW] at h

/-! ## Claim theorems: sanitizer (C1, C2, C7, C8, C10) -/

/-- C1 (counterexample): the sanitizer is NOT idempotent as claimed.  For a
nested session envelope — an export whose `state` payload itself carries
`version` and `state` fields — the first pass propagates those two fields
into the output, so the second pass mistakes the output for an envelope,
unwraps it, and discards everything else (here the intent "A" becomes "").
The same deterministic id generator is injected into both passes. -/
theorem sanitize_idem_counterexample :
    sanitizeAndMergeState genW (sanitizeAndMergeState genW nestedEnvelope) ≠
      sanitizeAndMergeState genW nestedEnvelope := by
  intro h
  have h2 : jsGet (sanitizeAndMergeState genW (sanitizeAndMergeState genW nestedEnvelope))
      "intent" = jsGet (sanitizeAndMergeState genW nestedEnvelope) "intent" := by rw [h]
  have h3 : JSVal.str "" = JSVal.str "A" := h2
  injection h3 with h4
  exact absurd h4 (by decide)

/-- C1 (amended): `sanitizeAndMergeState` is idempotent — with the same
deterministic id generator injected — provided the generator never returns
an empty id and the sanitized output is not itself mistakable for a
session envelope (that is, the working candidate does not carry both a
truthy object `state` field and a truthy `version` field whose string
coercion starts with "inkwise:session:", which would make the second pass
unwrap the output). -/
theorem sanitize_idem_amended (g : Nat → String) (x : JSVal)
    (hg : ∀ n, g n ≠ "")
    (hnw : selectCandidate (sanitizeAndMergeState g x) = sanitizeAndMergeState g x) :
    sanitizeAndMergeState g (sanitizeAndMergeState g x) = sanitizeAndMergeState g x := by
  have h1 : sanitizeAndMergeState g (sanitizeAndMergeState g x) =
      sanitizeCore g (selectCandidate (sanitizeAndMergeState g x)) := rfl
  rw [h1, hnw]
  show JSVal.obj (mergedFields g (JSVal.obj (mergedFields g (selectCandidate x)))) =
    JSVal.obj (mergedFields g (selectCandidate x))
  exact congrArg JSVal.obj (mergedFields_idem hg _)

theorem sanitize_idem_amended_witness :
    selectCandidate (sanitizeAndMergeState genW (JSVal.obj [("intent", .str "Hello")])) =
      sanitizeAndMergeState genW (JSVal.obj [("intent", .str "Hello")]) ∧
    sanitizeAndMergeState genW
        (sanitizeAndMergeState genW (JSVal.obj [("intent", .str "Hello")])) =
      sanitizeAndMergeState genW (JSVal.obj [("intent", .str "Hello")]) :=
  ⟨rfl, sanitize_idem_amended genW _ genW_ne rfl⟩

/-- C2: for every input, the sanitized state's `claims` is an array of
length at least 1 in which every claim's id is non-empty: the id is a
truthy value (so in particular never the empty string, `null` or
`undefined`), provided the injected id generator never returns an empty
string (the production generator `uuid` always returns a non-empty id). -/
theorem sanitize_claims_invariant (g : Nat → String) (hg : ∀ n, g n ≠ "") (x : JSVal) :
    ∃ cs, jsGet (sanitizeAndMergeState g x) "claims" = .arr cs ∧
      1 ≤ cs.length ∧
      ∀ c ∈ cs, (jsGet c "id").truthyB = true ∧ jsGet c "id" ≠ .str "" := by
  refine ⟨sanitizeClaims g 0 (sanClaimsRaw (parsedOf (selectCandidate x))), ?_, ?_, ?_⟩
  · show jsGet (JSVal.obj (mergedFields g (selectCandidate x))) "claims" = _
    rw [jsGet_obj, getF_merged_claims]
    rfl
  · rw [sanitizeClaims_len]
    have hne := sanClaimsRaw_ne_nil (parsedOf (selectCandidate x))
    cases hcs : sanClaimsRaw (parsedOf (selectCandidate x)) with
    | nil => exact absurd hcs hne
    | cons a as => simp
  · intro c hc
    obtain ⟨idv, t, he, hid⟩ := sanitizeClaims_good hg _ _ c hc
    subst he
    have hgetid : jsGet (JSVal.obj [("id", idv), ("text", JSVal.str t)]) "id" = idv := by
      simp [jsGet, getF]
    rw [hgetid]
    exact ⟨hid, truthy_ne_empty hid⟩

theorem sanitize_claims_invariant_witness :
    ∃ cs, jsGet (sanitizeAndMergeState genW JSVal.null) "claims" = .arr cs ∧
      1 ≤ cs.length ∧
      ∀ c ∈ cs, (jsGet c "id").truthyB = true ∧ jsGet c "id" ≠ .str "" :=
  sanitize_claims_invariant genW genW_ne JSVal.null

/-- C7: the strict import path rejects an empty claims array —
`extractStateFromImport({state:{claims:[]}})` returns a failure value —
even though the lenient sanitizer repairs the very same input to the
single default claim. -/
theorem strict_import_rejects_empty_claims :
    extractStateFromImport (.obj [("state", .obj [("claims", .arr [])])]) = none ∧
    jsGet (sanitizeAndMergeState genW (.obj [("state", .obj [("claims", .arr [])])]))
      "claims" = .arr [defaultClaim] :=
  ⟨rfl, rfl⟩

/-- C8: the sanitizer propagates unrecognized fields.  Any key of the
working candidate outside the documented Session State fields (the keys of
`DEFAULT_STATE`) survives into the output with its value unchanged. -/
theorem sanitize_propagates_extra_keys (g : Nat → String) (x : JSVal)
    (fs : List (String × JSVal)) (k : String) (v : JSVal)
    (hc : selectCandidate x = .obj fs)
    (hnd : (keys fs).Nodup)
    (hk : k ∉ keys defaultStateFields)
    (hv : getF fs k = some v) :
    jsGet (sanitizeAndMergeState g x) k = v := by
  have hne : ∀ k2 : String, k2 ∈ keys defaultStateFields → k ≠ k2 :=
    fun k2 hm e => hk (e ▸ hm)
  show jsGet (JSVal.obj (mergedFields g (selectCandidate x))) k = v
  rw [hc, jsGet_obj, mergedFields_eq]
  rw [getF_fixProfile_ne _ (hne "outputProfile" (by decide))]
  rw [getF_fixPhase_ne _ (hne "phase" (by decide))]
  rw [getF_objSet_ne _ _ (hne "linkedin" (by decide))]
  rw [getF_objSet_ne _ _ (hne "ui" (by decide))]
  rw [getF_objSet_ne _ _ (hne "expressions" (by decide))]
  rw [getF_objSet_ne _ _ (hne "claims" (by decide))]
  rw [getF_objSet_ne _ _ (hne "intent" (by decide))]
  rw [parsedOf_obj]
  rw [show enumFields (JSVal.obj fs) = fs from rfl]
  rw [getF_spread, getLast_eq_getF_of_nodup hnd, hv]
  rfl

theorem sanitize_propagates_extra_keys_witness :
    selectCandidate (JSVal.obj [("custom", .str "keepme")]) =
      .obj [("custom", .str "keepme")] ∧
    jsGet (sanitizeAndMergeState genW (JSVal.obj [("custom", .str "keepme")])) "custom" =
      .str "keepme" :=
  ⟨rfl, sanitize_propagates_extra_keys genW _ _ "custom" _ rfl (by decide) (by decide) rfl⟩

/-- C10: the envelope unwrap fires for ANY truthy `version` value whose
string coercion starts with "inkwise:session:", not only for strings: an
input holding a `state` object and such a `version` is unwrapped to its
nested state.  The witness instantiates `version` with the one-element
array `["inkwise:session:v1"]`. -/
theorem unwrap_string_coercion (g : Nat → String) (st ver : JSVal)
    (hst : st.truthyB = true) (hsto : st.isObjTypeB = true)
    (hver : ver.truthyB = true)
    (hpfx : strStarts (jsToString ver) sessionTag = true) :
    selectCandidate (.obj [("state", st), ("version", ver)]) = st ∧
    sanitizeAndMergeState g (.obj [("state", st), ("version", ver)]) =
      sanitizeCore g st := by
  have hstate : jsGet (JSVal.obj [("state", st), ("version", ver)]) "state" = st := by
    simp [jsGet, getF]
  have hversion : jsGet (JSVal.obj [("state", st), ("version", ver)]) "version" = ver := by
    simp [jsGet, getF]
  have hcond : unwrapCond (.obj [("state", st), ("version", ver)]) = true := by
    rw [unwrapCond, hstate, hversion, hst, hsto, hver, hpfx]
    rfl
  have hsel : selectCandidate (.obj [("state", st), ("version", ver)]) = st := by
    rw [selectCandidate, if_pos hcond, hstate]
  exact ⟨hsel, by rw [sanitizeAndMergeState, hsel]⟩

theorem unwrap_string_coercion_witness :
    (JSVal.arr [.str "inkwise:session:v1"]).truthyB = true ∧
    strStarts (jsToString (JSVal.arr [.str "inkwise:session:v1"])) sessionTag = true ∧
    selectCandidate (JSVal.obj [("state", .obj [("intent", .str "nested")]),
      ("version", .arr [.str "inkwise:session:v1"])]) = .obj [("intent", .str "nested")] ∧
    sanitizeAndMergeState genW (JSVal.obj [("state", .obj [("intent", .str "nested")]),
      ("version", .arr [.str "inkwise:session:v1"])]) =
      sanitizeCore genW (.obj [("intent", .str "nested")]) := by
  have h := unwrap_string_coercion genW (.obj [("intent", .str "nested")])
    (.arr [.str "inkwise:session:v1"]) (by decide) (by decide) (by decide) (by decide)
  exact ⟨by decide, by decide, h.1, h.2⟩

/-! ## Thread splitter lemmas and claim C4 -/

theorem trimChars_length_le (cs : List Char) : (trimChars cs).length ≤ cs.length := by
  rw [trimChars]
  calc (((cs.dropWhile isWS).reverse.dropWhile isWS).reverse).length
      = ((cs.dropWhile isWS).reverse.dropWhile isWS).length := List.length_reverse _
    _ ≤ (cs.dropWhile isWS).reverse.length :=
        (List.dropWhile_sublist _).length_le
    _ = (cs.dropWhile isWS).length := List.length_reverse _
    _ ≤ cs.length := (List.dropWhile_sublist _).length_le

theorem foldl_last_le (P : Nat → Prop) [DecidablePred P] (fro : Nat) :
    ∀ (l : List Nat) (acc : Int), acc ≤ (fro : Int) →
      (∀ i ∈ l, (i : Int) ≤ (fro : Int)) →
      l.foldl (fun acc i => if P i then (i : Int) else acc) acc ≤ (fro : Int) := by
  intro l
  induction l with
  | nil => intro acc h _; exact h
  | cons i l ih =>
    intro acc hacc hl
    rw [List.foldl_cons]
    apply ih
    · by_cases hc : P i
      · rw [if_pos hc]; exact hl i (by simp)
      · rw [if_neg hc]; exact hacc
    · intro j hj; exact hl j (List.mem_cons_of_mem _ hj)

theorem lastIdxLe_le (cs : List Char) (c : Char) (fro : Nat) :
    lastIdxLe cs c fro ≤ (fro : Int) := by
  rw [lastIdxLe]
  refine foldl_last_le (fun i => cs.get? i = some c) fro _ _ (by omega) ?_
  intro i hi
  rw [List.mem_range] at hi
  have h2 : i ≤ fro := by
    have := Nat.lt_of_lt_of_le hi (min_le_left _ _)
    omega
  exact_mod_cast h2

theorem cutAt_le (rem : List Char) (size : Nat) : cutAt rem size ≤ size := by
  show ((if (if lastIdxLe rem '\n' size < 120 then lastIdxLe rem ' ' size
      else lastIdxLe rem '\n' size) < 120 then (size : Int)
      else (if lastIdxLe rem '\n' size < 120 then lastIdxLe rem ' ' size
      else lastIdxLe rem '\n' size)).toNat) ≤ size
  by_cases h2 : (if lastIdxLe rem '\n' size < 120 then lastIdxLe rem ' ' size
      else lastIdxLe rem '\n' size) < 120
  · rw [if_pos h2]
    simp
  · rw [if_neg h2]
    rw [Int.toNat_le]
    by_cases h1 : lastIdxLe rem '\n' size < 120
    · rw [if_pos h1]; exact lastIdxLe_le rem ' ' size
    · rw [if_neg h1]; exact lastIdxLe_le rem '\n' size

theorem threadLoop_bound (size : Nat) :
    ∀ (fuel : Nat) (rem : List Char), ∀ b ∈ threadLoop size fuel rem,
      b.length ≤ size := by
  intro fuel
  induction fuel with
  | zero => intro rem b hb; simp [threadLoop] at hb
  | succ fuel ih =>
    intro rem b hb
    rw [threadLoop] at hb
    by_cases hlen : rem.length > size
    · rw [if_pos hlen] at hb
      rcases List.mem_cons.mp hb with e | hmem
      · subst e
        calc (trimChars (rem.take (cutAt rem size))).length
            ≤ (rem.take (cutAt rem size)).length := trimChars_length_le _
          _ ≤ cutAt rem size := by rw [List.length_take]; exact min_le_left _ _
          _ ≤ size := cutAt_le rem size
      · exact ih _ b hmem
    · rw [if_neg hlen] at hb
      by_cases he : rem.isEmpty
      · rw [if_pos he] at hb
        simp at hb
      · rw [if_neg he] at hb
        rw [List.mem_singleton] at hb
        subst hb
        omega

theorem numberFrom_mem (n : Nat) :
    ∀ (cs : List String) (i : Nat) (x : String), x ∈ numberFrom n i cs →
      ∃ j b, b ∈ cs ∧ x = toString (j + 1) ++ "/" ++ toString n ++ "\n" ++ b := by
  intro cs
  induction cs with
  | nil => intro i x hx; simp [numberFrom] at hx
  | cons c cs ih =>
    intro i x hx
    rw [numberFrom] at hx
    rcases List.mem_cons.mp hx with e | hmem
    · exact ⟨i, c, by simp, e⟩
    · obtain ⟨j, b, hb, he⟩ := ih (i + 1) x hmem
      exact ⟨j, b, List.mem_cons_of_mem _ hb, he⟩

/-! ## Claim C4 -/

/-- C4 (counterexample): a single "word" longer than the limit does NOT
occupy its own oversized chunk — the splitter hard-cuts it exactly at the
limit.  Here the input is one unbroken 10-character word and the limit is
4: every produced chunk is at most 8 characters long (numbering prefix
included), so no chunk is ever oversized, contradicting the claim's
exception clause. -/
theorem split_oversized_counterexample :
    splitIntoThread (String.mk (List.replicate 10 'A')) 4 =
      ["1/3\nAAAA", "2/3\nAAAA", "3/3\nAA"] ∧
    ∀ s ∈ splitIntoThread (String.mk (List.replicate 10 'A')) 4, s.length < 10 :=
  ⟨by decide, by decide⟩

/-- C4 (amended): for every input text and every limit ≥ 1, EVERY chunk
produced by `splitIntoThread` — excluding its "i/n\n" numbering prefix —
has length at most the limit, with no exception: a word longer than the
limit is hard-cut at exactly the limit rather than kept whole.  (At limit
0 the JS loop does not terminate, hence the hypothesis.) -/
theorem split_bound_amended (text : String) (limit : Nat) (hl : 1 ≤ limit) :
    ∀ chunk ∈ splitIntoThread text limit, ∃ (i n : Nat) (body : String),
      chunk = toString (i + 1) ++ "/" ++ toString n ++ "\n" ++ body ∧
      body.length ≤ limit := by
  intro chunk hc
  rw [splitIntoThread, numberChunks] at hc
  obtain ⟨j, b, hb, he⟩ := numberFrom_mem _ _ _ _ hc
  obtain ⟨l, hl2, hlm⟩ := List.mem_map.mp hb
  refine ⟨j, ((threadChunks text limit).map String.mk).length, b, he, ?_⟩
  rw [← hlm]
  show l.length ≤ limit
  exact threadLoop_bound limit _ _ l hl2

theorem split_bound_amended_witness :
    1 ≤ 5 ∧
    ∀ chunk ∈ splitIntoThread "alpha beta gamma" 5, ∃ (i n : Nat) (body : String),
      chunk = toString (i + 1) ++ "/" ++ toString n ++ "\n" ++ body ∧
      body.length ≤ 5 :=
  ⟨by decide, split_bound_amended "alpha beta gamma" 5 (by decide)⟩

/-! ## Draft builder lemmas and claims C5, C6 -/

theorem buildDraftText_blog (base : String) (st : DraftState)
    (hp : st.outputProfile = "blog") :
    buildDraftText base st =
      jsTrim ((if jsTrim st.intent ≠ "" then "# " ++ jsTrim st.intent ++ "\n\n" else "") ++
        (if getCleanParagraphs (getCleanClaims st.claims) st.expressions ≠ [] ∧
            getCleanClaims st.claims ≠ []
         then blogSections (getCleanClaims st.claims)
           (getCleanParagraphs (getCleanClaims st.claims) st.expressions)
         else jsTrim base)) := by
  obtain ⟨intent, claims, es, op, lk⟩ := st
  change op = "blog" at hp
  subst hp
  rfl

theorem getCleanParagraphs_eq_map (claims : List ClaimT) (es : List (String × JSVal))
    (h : ∀ c ∈ claims, claimExprE es c ≠ "") :
    getCleanParagraphs claims es = claims.map (claimExprE es) := by
  rw [getCleanParagraphs]
  have he : claims.map (fun c =>
      match exprLookup es c.id with
      | .str s => jsTrim s
      | _ => "") = claims.map (claimExprE es) := by
    apply List.map_congr_left
    intro c _
    rfl
  rw [he]
  apply List.filter_eq_self.mpr
  intro s hs
  obtain ⟨c, hc, he2⟩ := List.mem_map.mp hs
  subst he2
  simpa using h c hc

theorem blogSections_map (es : List (String × JSVal)) :
    ∀ (claims : List ClaimT), (∀ c ∈ claims, claimExprE es c ≠ "") →
      blogSections claims (claims.map (claimExprE es)) =
        (claims.map (fun c =>
          "## " ++ c.text ++ "\n\n" ++ claimExprE es c ++ "\n\n")).foldr
          (fun a acc => a ++ acc) "" := by
  intro claims
  induction claims with
  | nil => intro _; rfl
  | cons c cs ih =>
    intro h
    rw [List.map_cons, blogSections]
    rw [if_pos (h c (by simp))]
    rw [ih (fun c2 hc2 => h c2 (List.mem_cons_of_mem _ hc2))]
    rw [List.map_cons, List.foldr_cons]
    simp [String.append_assoc]

/-- C5 (counterexample): in the blog profile, expressions ARE attached to
a different claim's heading when an earlier claim lacks one.  With claims
"One" (no expression) and "Two" (expression "Expr B"), the compacted
paragraph list puts "Expr B" at index 0, so it is rendered under the
heading "## One" while "## Two" gets no body — not the index-aligned
rendering the claim describes. -/
theorem blog_alignment_counterexample :
    buildDraftText "BASE" blogMisState = "## One\n\nExpr B\n\n## Two" ∧
    buildDraftText "BASE" blogMisState ≠ "## One\n\n## Two\n\nExpr B" :=
  ⟨by decide, by decide⟩

/-- C5 (amended): in the blog profile, each clean claim is rendered as a
level-2 heading, and the bodies are the non-empty expressions in claim
order COMPACTED: heading i receives the i-th non-empty expression, not
necessarily its own claim's.  Index alignment therefore holds exactly when
every clean claim has a non-empty matching expression — then each heading
is followed by that claim's own expression, as proved here. -/
theorem blog_alignment_amended (st : DraftState) (base : String)
    (hp : st.outputProfile = "blog")
    (hne : getCleanClaims st.claims ≠ [])
    (hall : ∀ c ∈ getCleanClaims st.claims, claimExprE st.expressions c ≠ "") :
    buildDraftText base st =
      jsTrim ((if jsTrim st.intent ≠ "" then "# " ++ jsTrim st.intent ++ "\n\n" else "") ++
        ((getCleanClaims st.claims).map
          (fun c => "## " ++ c.text ++ "\n\n" ++ claimExprE st.expressions c ++ "\n\n")).foldr
          (fun a acc => a ++ acc) "") := by
  rw [buildDraftText_blog base st hp]
  rw [getCleanParagraphs_eq_map _ _ hall]
  have hpne : (getCleanClaims st.claims).map (claimExprE st.expressions) ≠ [] := by
    intro e
    exact hne (List.map_eq_nil_iff.mp e)
  have hcond : (getCleanClaims st.claims).map (claimExprE st.expressions) ≠ [] ∧
      getCleanClaims st.claims ≠ [] := ⟨hpne, hne⟩
  rw [if_pos hcond]
  rw [blogSections_map _ _ hall]

theorem blog_alignment_amended_witness :
    blogGoodState.outputProfile = "blog" ∧
    getCleanClaims blogGoodState.claims ≠ [] ∧
    (∀ c ∈ getCleanClaims blogGoodState.claims,
      claimExprE blogGoodState.expressions c ≠ "") ∧
    buildDraftText "BASE" blogGoodState = "# T\n\n## One\n\nEA\n\n## Two\n\nEB" := by
  refine ⟨rfl, by decide, by decide, ?_⟩
  rw [blog_alignment_amended blogGoodState "BASE" rfl (by decide) (by decide)]
  decide

/-- C6 (counterexample): with intent "Ship it", one claim "Be bold", no
expressions, bullets off and every other composer setting at its default,
the base draft is NOT exactly "Ship it": the default configuration has
`includeCTA = true` with a non-empty `ctaText`, so the CTA paragraph is
appended after the hook. -/
theorem composer_hook_counterexample :
    buildLinkedInDraft shipItState ≠ "Ship it" := by decide

/-- C6 (amended): for that same state the base draft equals
"Ship it\n\nWhat would you change?": the hook (the intent) followed by the
default CTA.  The claims-as-body fallback is indeed skipped because a hook
exists; the draft equals exactly "Ship it" only if the CTA is disabled or
emptied. -/
theorem composer_hook_amended :
    buildLinkedInDraft shipItState = "Ship it\n\nWhat would you change?" := by decide

/-! ## Schema validator lemmas and claim C9 -/

theorem mapOpt_self (cs : List JSVal) (h : ∀ c ∈ cs, parseClaim c = some c) :
    mapOpt parseClaim cs = some cs := by
  induction cs with
  | nil => rfl
  | cons c cs ih =>
    rw [mapOpt, h c (by simp), ih (fun c2 hc => h c2 (List.mem_cons_of_mem _ hc))]

/-- C9: the strict state validator requires only `claims`: an object whose
`claims` is a non-empty array of valid claims parses successfully even
with every other field absent, and the result carries the schema defaults
(phase "intent", empty intent, profile "linkedin", empty expressions map,
and the default ui and linkedin configurations of schemas.js). -/
theorem parse_app_state_minimal (cs : List JSVal) (hne : cs ≠ [])
    (hok : ∀ c ∈ cs, parseClaim c = some c) :
    parseAppStateV (.obj [("claims", .arr cs)]) = some (.obj
      [ ("phase", .str "intent"), ("intent", .str "")
      , ("claims", .arr cs), ("expressions", .obj [])
      , ("outputProfile", .str "linkedin")
      , ("ui", .obj [("presetId", .str "systems_coordination")])
      , ("linkedin", .obj
          [ ("hookOverride", .str ""), ("includeBullets", .bool false)
          , ("bulletIntro", .str "Key points:"), ("maxBullets", .num 5)
          , ("includeCTA", .bool true), ("ctaText", .str "What would you change?")
          , ("includeHashtags", .bool false)
          , ("hashtags", .str "#leadership #execution #systems")
          , ("includeSignature", .bool false)
          , ("signature", .str "â€” Posted via Inkwise") ]) ]) := by
  have hie : cs.isEmpty = false := by
    cases cs with
    | nil => exact absurd rfl hne
    | cons a as => rfl
  have hclaims : parseClaims (JSVal.arr cs) = some (.arr cs) := by
    rw [parseClaims, hie]
    rw [mapOpt_self cs hok]
    rfl
  rw [show parseAppStateV (JSVal.obj [("claims", JSVal.arr cs)]) =
    (parseClaims (JSVal.arr cs)).bind (fun cl => some (JSVal.obj
      [ ("phase", .str "intent"), ("intent", .str "")
      , ("claims", cl), ("expressions", .obj [])
      , ("outputProfile", .str "linkedin")
      , ("ui", .obj [("presetId", .str "systems_coordination")])
      , ("linkedin", .obj
          [ ("hookOverride", .str ""), ("includeBullets", .bool false)
          , ("bulletIntro", .str "Key points:"), ("maxBullets", .num 5)
          , ("includeCTA", .bool true), ("ctaText", .str "What would you change?")
          , ("includeHashtags", .bool false)
          , ("hashtags", .str "#leadership #execution #systems")
          , ("includeSignature", .bool false)
          , ("signature", .str "â€” Posted via Inkwise") ]) ])) from rfl]
  rw [hclaims]
  rfl

theorem parse_app_state_minimal_witness :
    ([JSVal.obj [("id", .str "c1"), ("text", .str "claim text")]] ≠ ([] : List JSVal)) ∧
    parseAppStateV (.obj [("claims",
      .arr [.obj [("id", .str "c1"), ("text", .str "claim text")]])]) = some (.obj
      [ ("phase", .str "intent"), ("intent", .str "")
      , ("claims", .arr [.obj [("id", .str "c1"), ("text", .str "claim text")]])
      , ("expressions", .obj [])
      , ("outputProfile", .str "linkedin")
      , ("ui", .obj [("presetId", .str "systems_coordination")])
      , ("linkedin", .obj
          [ ("hookOverride", .str ""), ("includeBullets", .bool false)
          , ("bulletIntro", .str "Key points:"), ("maxBullets", .num 5)
          , ("includeCTA", .bool true), ("ctaText", .str "What would you change?")
          , ("includeHashtags", .bool false)
          , ("hashtags", .str "#leadership #execution #systems")
          , ("includeSignature", .bool false)
          , ("signature", .str "â€” Posted via Inkwise") ]) ]) := by
  constructor
  · intro h
    exact List.noConfusion h
  · exact parse_app_state_minimal _ (fun h => List.noConfusion h)
      (fun c hc => by rw [List.mem_singleton] at hc; subst hc; rfl)

/-! ## JSON round-trip stability lemmas and claim C3 -/

theorem jroundObj_eq (fs : List (String × JSVal))
    (h : ∀ p ∈ fs, p.2 ≠ JSVal.undef ∧ jround p.2 = p.2) : jroundObj fs = fs := by
  induction fs with
  | nil => rfl
  | cons p fs ih =>
    obtain ⟨k, v⟩ := p
    have hp1 : v ≠ JSVal.undef := (h (k, v) (by simp)).1
    have hp2 : jround v = v := (h (k, v) (by simp)).2
    have ih2 := ih (fun q hq => h q (List.mem_cons_of_mem _ hq))
    cases v
    case undef => exact absurd rfl hp1
    all_goals (simp only [jroundObj]; rw [hp2, ih2])

theorem jroundArr_eq (l : List JSVal)
    (h : ∀ x ∈ l, x ≠ JSVal.undef ∧ jround x = x) : jroundArr l = l := by
  induction l with
  | nil => rfl
  | cons x l ih =>
    have hp1 : x ≠ JSVal.undef := (h x (by simp)).1
    have hp2 : jround x = x := (h x (by simp)).2
    have ih2 := ih (fun q hq => h q (List.mem_cons_of_mem _ hq))
    cases x
    case undef => exact absurd rfl hp1
    all_goals (simp only [jroundArr]; rw [hp2, ih2])

theorem parseStrD_stable {d : String} {v w : JSVal} (h : parseStrD d v = some w) :
    w ≠ JSVal.undef ∧ jround w = w := by
  cases v with
  | undef => injection h with h2; subst h2; exact ⟨fun e => JSVal.noConfusion e, rfl⟩
  | str s => injection h with h2; subst h2; exact ⟨fun e => JSVal.noConfusion e, rfl⟩
  | null => exact Option.noConfusion h
  | bool b => exact Option.noConfusion h
  | num n => exact Option.noConfusion h
  | arr xs => exact Option.noConfusion h
  | obj fs => exact Option.noConfusion h

theorem parseBoolD_stable {d : Bool} {v w : JSVal} (h : parseBoolD d v = some w) :
    w ≠ JSVal.undef ∧ jround w = w := by
  cases v with
  | undef => injection h with h2; subst h2; exact ⟨fun e => JSVal.noConfusion e, rfl⟩
  | bool b => injection h with h2; subst h2; exact ⟨fun e => JSVal.noConfusion e, rfl⟩
  | null => exact Option.noConfusion h
  | str s => exact Option.noConfusion h
  | num n => exact Option.noConfusion h
  | arr xs => exact Option.noConfusion h
  | obj fs => exact Option.noConfusion h

theorem parseMaxBullets_stable {v w : JSVal} (h : parseMaxBullets v = some w) :
    w ≠ JSVal.undef ∧ jround w = w := by
  cases v with
  | undef => injection h with h2; subst h2; exact ⟨fun e => JSVal.noConfusion e, rfl⟩
  | num n =>
    rw [parseMaxBullets] at h
    split at h
    · injection h with h2; subst h2; exact ⟨fun e => JSVal.noConfusion e, rfl⟩
    · exact Option.noConfusion h
  | null => exact Option.noConfusion h
  | bool b => exact Option.noConfusion h
  | str s => exact Option.noConfusion h
  | arr xs => exact Option.noConfusion h
  | obj fs => exact Option.noConfusion h

theorem parseEnumD_stable {ks : List String} {d : String} {v w : JSVal}
    (h : parseEnumD ks d v = some w) : w ≠ JSVal.undef ∧ jround w = w := by
  cases v with
  | undef => injection h with h2; subst h2; exact ⟨fun e => JSVal.noConfusion e, rfl⟩
  | str s =>
    rw [parseEnumD] at h
    split at h
    · injection h with h2; subst h2; exact ⟨fun e => JSVal.noConfusion e, rfl⟩
    · exact Option.noConfusion h
  | null => exact Option.noConfusion h
  | bool b => exact Option.noConfusion h
  | num n => exact Option.noConfusion h
  | arr xs => exact Option.noConfusion h
  | obj fs => exact Option.noConfusion h

theorem parseClaim_stable {v w : JSVal} (h : parseClaim v = some w) :
    w ≠ JSVal.undef ∧ jround w = w := by
  cases v with
  | obj fs =>
    rw [parseClaim] at h
    split at h
    · split at h
      all_goals first
        | exact Option.noConfusion h
        | (injection h with h2; subst h2; exact ⟨fun e => JSVal.noConfusion e, rfl⟩)
    · exact Option.noConfusion h
  | null => exact Option.noConfusion h
  | undef => exact Option.noConfusion h
  | bool b => exact Option.noConfusion h
  | num n => exact Option.noConfusion h
  | str s => exact Option.noConfusion h
  | arr xs => exact Option.noConfusion h

theorem mapOpt_mem {f : JSVal → Option JSVal} :
    ∀ {cs l : List JSVal}, mapOpt f cs = some l → ∀ x ∈ l, ∃ c, f c = some x := by
  intro cs
  induction cs with
  | nil =>
    intro l h x hx
    rw [mapOpt] at h
    injection h with h2
    subst h2
    simp at hx
  | cons c cs ih =>
    intro l h x hx
    rw [mapOpt] at h
    cases hf : f c with
    | none => rw [hf] at h; exact Option.noConfusion h
    | some y =>
      rw [hf] at h
      cases hm : mapOpt f cs with
      | none => rw [hm] at h; exact Option.noConfusion h
      | some ys =>
        rw [hm] at h
        injection h with h2
        subst h2
        rcases List.mem_cons.mp hx with e | hmem
        · exact ⟨c, e ▸ hf⟩
        · exact ih hm x hmem

theorem parseClaims_stable {v w : JSVal} (h : parseClaims v = some w) :
    w ≠ JSVal.undef ∧ jround w = w := by
  cases v with
  | arr cs =>
    rw [parseClaims] at h
    split at h
    · exact Option.noConfusion h
    · cases hm : mapOpt parseClaim cs with
      | none => rw [hm] at h; exact Option.noConfusion h
      | some l =>
        rw [hm] at h
        injection h with h2
        subst h2
        refine ⟨fun e => JSVal.noConfusion e, ?_⟩
        show JSVal.arr (jroundArr l) = JSVal.arr l
        have hl : jroundArr l = l := jroundArr_eq l (fun x hx => by
          obtain ⟨c, hc⟩ := mapOpt_mem hm x hx
          exact parseClaim_stable hc)
        rw [hl]
  | null => exact Option.noConfusion h
  | undef => exact Option.noConfusion h
  | bool b => exact Option.noConfusion h
  | num n => exact Option.noConfusion h
  | str s => exact Option.noConfusion h
  | obj fs => exact Option.noConfusion h

theorem strMatch_shape {u : JSVal}
    (h : (match u with | JSVal.str _ => true | _ => false) = true) : ∃ s, u = .str s := by
  cases u
  case str s => exact ⟨s, rfl⟩
  all_goals exact Bool.noConfusion h

theorem parseExpressionsD_stable {v w : JSVal} (h : parseExpressionsD v = some w) :
    w ≠ JSVal.undef ∧ jround w = w := by
  cases v with
  | undef => injection h with h2; subst h2; exact ⟨fun e => JSVal.noConfusion e, rfl⟩
  | obj fs =>
    rw [parseExpressionsD] at h
    split at h
    case _ hall =>
      injection h with h2
      subst h2
      refine ⟨fun e => JSVal.noConfusion e, ?_⟩
      show JSVal.obj (jroundObj fs) = JSVal.obj fs
      have hj : jroundObj fs = fs := jroundObj_eq fs (fun p hp => by
        obtain ⟨s, hs⟩ := strMatch_shape (List.all_eq_true.mp hall p hp)
        rw [hs]
        exact ⟨fun e => JSVal.noConfusion e, rfl⟩)
      rw [hj]
    case _ => exact Option.noConfusion h
  | null => exact Option.noConfusion h
  | bool b => exact Option.noConfusion h
  | num n => exact Option.noConfusion h
  | str s => exact Option.noConfusion h
  | arr xs => exact Option.noConfusion h

theorem parseUiD_stable {v w : JSVal} (h : parseUiD v = some w) :
    w ≠ JSVal.undef ∧ jround w = w := by
  cases v with
  | undef => injection h with h2; subst h2; exact ⟨fun e => JSVal.noConfusion e, rfl⟩
  | obj fs =>
    rw [parseUiD] at h
    cases hs : parseStrD "systems_coordination" (jsGet (JSVal.obj fs) "presetId") with
    | none => rw [hs] at h; exact Option.noConfusion h
    | some p =>
      rw [hs] at h
      injection h with h2
      subst h2
      obtain ⟨hpne, hpj⟩ := parseStrD_stable hs
      refine ⟨fun e => JSVal.noConfusion e, ?_⟩
      show JSVal.obj (jroundObj [("presetId", p)]) = _
      rw [jroundObj_eq _ (fun q hq => by
        rw [List.mem_singleton] at hq
        subst hq
        exact ⟨hpne, hpj⟩)]
  | null => exact Option.noConfusion h
  | bool b => exact Option.noConfusion h
  | num n => exact Option.noConfusion h
  | str s => exact Option.noConfusion h
  | arr xs => exact Option.noConfusion h

theorem parseLinkedInFields_stable {v w : JSVal} (h : parseLinkedInFields v = some w) :
    w ≠ JSVal.undef ∧ jround w = w := by
  rw [parseLinkedInFields] at h
  simp only [bind, Option.bind_eq_some] at h
  obtain ⟨a1, h1, a2, h2, a3, h3, a4, h4, a5, h5, a6, h6, a7, h7, a8, h8, a9, h9,
    a10, h10, hw⟩ := h
  injection hw with hweq
  subst hweq
  refine ⟨fun e => JSVal.noConfusion e, ?_⟩
  show JSVal.obj (jroundObj _) = _
  have hstb : ∀ p ∈ [("hookOverride", a1), ("includeBullets", a2), ("bulletIntro", a3),
      ("maxBullets", a4), ("includeCTA", a5), ("ctaText", a6), ("includeHashtags", a7),
      ("hashtags", a8), ("includeSignature", a9), ("signature", a10)],
      p.2 ≠ JSVal.undef ∧ jround p.2 = p.2 := by
    intro p hp
    simp only [List.mem_cons, List.not_mem_nil, or_false] at hp
    rcases hp with rfl | rfl | rfl | rfl | rfl | rfl | rfl | rfl | rfl | rfl
    · exact parseStrD_stable h1
    · exact parseBoolD_stable h2
    · exact parseStrD_stable h3
    · exact parseMaxBullets_stable h4
    · exact parseBoolD_stable h5
    · exact parseStrD_stable h6
    · exact parseBoolD_stable h7
    · exact parseStrD_stable h8
    · exact parseBoolD_stable h9
    · exact parseStrD_stable h10
  rw [jroundObj_eq _ hstb]

theorem parseLinkedInD_stable {v w : JSVal} (h : parseLinkedInD v = some w) :
    w ≠ JSVal.undef ∧ jround w = w := by
  cases v with
  | undef => exact parseLinkedInFields_stable h
  | obj fs => exact parseLinkedInFields_stable h
  | null => exact Option.noConfusion h
  | bool b => exact Option.noConfusion h
  | num n => exact Option.noConfusion h
  | str s => exact Option.noConfusion h
  | arr xs => exact Option.noConfusion h

theorem parseOptStr_entries {v : JSVal} {o : Option JSVal} (h : parseOptStr v = some o) :
    ∀ w, o = some w → w ≠ JSVal.undef ∧ jround w = w := by
  cases v with
  | undef =>
    injection h with h2; subst h2
    intro w hw; exact Option.noConfusion hw
  | str s =>
    injection h with h2; subst h2
    intro w hw
    injection hw with h3
    subst h3
    exact ⟨fun e => JSVal.noConfusion e, rfl⟩
  | null => exact Option.noConfusion h
  | bool b => exact Option.noConfusion h
  | num n => exact Option.noConfusion h
  | arr xs => exact Option.noConfusion h
  | obj fs => exact Option.noConfusion h

theorem parseOptDatetime_entries {v : JSVal} {o : Option JSVal}
    (h : parseOptDatetime v = some o) :
    ∀ w, o = some w → w ≠ JSVal.undef ∧ jround w = w := by
  cases v with
  | undef =>
    injection h with h2; subst h2
    intro w hw; exact Option.noConfusion hw
  | str s =>
    rw [parseOptDatetime] at h
    split at h
    · injection h with h2; subst h2
      intro w hw
      injection hw with h3
      subst h3
      exact ⟨fun e => JSVal.noConfusion e, rfl⟩
    · exact Option.noConfusion h
  | null => exact Option.noConfusion h
  | bool b => exact Option.noConfusion h
  | num n => exact Option.noConfusion h
  | arr xs => exact Option.noConfusion h
  | obj fs => exact Option.noConfusion h

theorem optField_stable {k : String} {o : Option JSVal}
    (h : ∀ w, o = some w → w ≠ JSVal.undef ∧ jround w = w) :
    ∀ p ∈ optField k o, p.2 ≠ JSVal.undef ∧ jround p.2 = p.2 := by
  cases o with
  | none => intro p hp; simp [optField] at hp
  | some w =>
    intro p hp
    simp only [optField, List.mem_singleton] at hp
    subst hp
    exact h w rfl

theorem parseMetadata_stable {v w : JSVal} (h : parseMetadata v = some w) :
    w ≠ JSVal.undef ∧ jround w = w := by
  cases v with
  | obj fs =>
    rw [parseMetadata] at h
    simp only [bind, Option.bind_eq_some] at h
    obtain ⟨i, hi, t, ht, cdt, hc, u, hu, hw⟩ := h
    injection hw with hweq
    subst hweq
    refine ⟨fun e => JSVal.noConfusion e, ?_⟩
    show JSVal.obj (jroundObj _) = _
    have hstb : ∀ p ∈ (optField "id" i ++ optField "title" t ++
        optField "createdAt" cdt ++ optField "updatedAt" u),
        p.2 ≠ JSVal.undef ∧ jround p.2 = p.2 := by
      intro p hp
      simp only [List.mem_append] at hp
      rcases hp with ((hp | hp) | hp) | hp
      · exact optField_stable (parseOptStr_entries hi) p hp
      · exact optField_stable (parseOptStr_entries ht) p hp
      · exact optField_stable (parseOptDatetime_entries hc) p hp
      · exact optField_stable (parseOptDatetime_entries hu) p hp
    rw [jroundObj_eq _ hstb]
  | null => exact Option.noConfusion h
  | undef => exact Option.noConfusion h
  | bool b => exact Option.noConfusion h
  | num n => exact Option.noConfusion h
  | str s => exact Option.noConfusion h
  | arr xs => exact Option.noConfusion h

theorem jroundObj_append (a b : List (String × JSVal)) :
    jroundObj (a ++ b) = jroundObj a ++ jroundObj b := by
  induction a with
  | nil => rfl
  | cons p a ih =>
    obtain ⟨k, v⟩ := p
    cases v <;> simp [jroundObj, ih]

theorem parseAppStateV_stable {v w : JSVal} (h : parseAppStateV v = some w) :
    jround w = w := by
  cases v with
  | obj fs =>
    rw [parseAppStateV] at h
    simp only [bind, Option.bind_eq_some] at h
    obtain ⟨ph, hph, it, hit, cl, hcl, ex, hex, op, hop, ui, hui, lk, hlk, md, hmd, hw⟩ := h
    injection hw with hweq
    subst hweq
    show JSVal.obj (jroundObj _) = _
    rw [jroundObj_append]
    have h7 : ∀ p ∈ [("phase", ph), ("intent", it), ("claims", cl), ("expressions", ex),
        ("outputProfile", op), ("ui", ui), ("linkedin", lk)],
        p.2 ≠ JSVal.undef ∧ jround p.2 = p.2 := by
      intro p hp
      simp only [List.mem_cons, List.not_mem_nil, or_false] at hp
      rcases hp with rfl | rfl | rfl | rfl | rfl | rfl | rfl
      · exact parseEnumD_stable hph
      · exact parseStrD_stable hit
      · exact parseClaims_stable hcl
      · exact parseExpressionsD_stable hex
      · exact parseEnumD_stable hop
      · exact parseUiD_stable hui
      · exact parseLinkedInD_stable hlk
    rw [jroundObj_eq _ h7]
    cases md with
    | none => rfl
    | some m =>
      have hmstb : m ≠ JSVal.undef ∧ jround m = m := by
        cases hmv : jsGet (JSVal.obj fs) "metadata" with
        | undef =>
          rw [hmv] at hmd
          have hmd2 : (some (none : Option JSVal)) = some (some m) := hmd
          exact Option.noConfusion (Option.some.inj hmd2)
        | null =>
          rw [hmv] at hmd
          exact Option.noConfusion hmd
        | bool b =>
          rw [hmv] at hmd
          exact Option.noConfusion hmd
        | num n =>
          rw [hmv] at hmd
          exact Option.noConfusion hmd
        | str s =>
          rw [hmv] at hmd
          exact Option.noConfusion hmd
        | arr xs =>
          rw [hmv] at hmd
          exact Option.noConfusion hmd
        | obj fs2 =>
          rw [hmv] at hmd
          have hmd2 : Option.map some (parseMetadata (JSVal.obj fs2)) = some (some m) := hmd
          obtain ⟨m2, hpm, hinj⟩ := Option.map_eq_some'.mp hmd2
          injection hinj with hinj2
          exact hinj2 ▸ parseMetadata_stable hpm
      rw [jroundObj_eq _ (fun p hp => by
        rw [List.mem_singleton] at hp
        subst hp
        exact hmstb)]
  | null => exact Option.noConfusion h
  | undef => exact Option.noConfusion h
  | bool b => exact Option.noConfusion h
  | num n => exact Option.noConfusion h
  | str s => exact Option.noConfusion h
  | arr xs => exact Option.noConfusion h

/-- C3 (counterexample): `badExprCanonical` is a canonical state produced by
the sanitizer (it keeps a numeric expression value), yet the export/import
round trip rejects it instead of recovering it. -/
theorem roundtrip_counterexample :
    extractStateFromImport (jround (createSessionExport "2025-01-18T00:00:00.000Z"
      badExprCanonical)) = none := by
  rfl

/-- C3 (amended): the export/import round trip recovers exactly the states
that are fixed points of the strict schema: if `parseAppStateV s = some s`
and the injected timestamp is a valid zod datetime, then
`extractStateFromImport (jround (createSessionExport t s)) = some s`.
Sanitizer outputs that the strict schema rewrites or rejects (for example a
retained non-string expression value) are not recovered. -/
theorem roundtrip_amended (s : JSVal) (t : String)
    (ht : isZodDatetime t = true)
    (hs : parseAppStateV s = some s) :
    extractStateFromImport (jround (createSessionExport t s)) = some s := by
  cases s with
  | obj fs =>
    have hjr : jround (JSVal.obj fs) = JSVal.obj fs := parseAppStateV_stable hs
    have hje : jround (createSessionExport t (JSVal.obj fs)) =
        JSVal.obj [("version", JSVal.str "inkwise:session:v1"),
          ("exportedAt", JSVal.str t), ("state", JSVal.obj fs)] := by
      show JSVal.obj [("version", JSVal.str "inkwise:session:v1"),
          ("exportedAt", JSVal.str t), ("state", jround (JSVal.obj fs))] = _
      rw [hjr]
    rw [hje]
    have hext : extractStateFromImport (JSVal.obj
        [("version", JSVal.str "inkwise:session:v1"),
         ("exportedAt", JSVal.str t), ("state", JSVal.obj fs)]) =
        (match parseSessionExport (JSVal.obj
            [("version", JSVal.str "inkwise:session:v1"),
             ("exportedAt", JSVal.str t), ("state", JSVal.obj fs)]) with
         | some ex => some (jsGet ex "state")
         | none => parseAppStateV (JSVal.obj fs)) := rfl
    rw [hext]
    have hpse : parseSessionExport (JSVal.obj
        [("version", JSVal.str "inkwise:session:v1"),
         ("exportedAt", JSVal.str t), ("state", JSVal.obj fs)]) =
        (if isZodDatetime t = true then some (JSVal.str t) else none).bind (fun ea =>
          (parseAppStateV (JSVal.obj fs)).bind (fun st =>
            some (JSVal.obj [("version", JSVal.str "inkwise:session:v1"),
              ("exportedAt", ea), ("state", st)]))) := rfl
    rw [hpse, if_pos ht, hs]
    rfl
  | null => exact Option.noConfusion hs
  | undef => exact Option.noConfusion hs
  | bool b => exact Option.noConfusion hs
  | num n => exact Option.noConfusion hs
  | str s2 => exact Option.noConfusion hs
  | arr xs => exact Option.noConfusion hs

/-- C3 (witness): the schema-fixed canonical state `schemaCanonicalState`
survives the full export / JSON / import round trip. -/
theorem roundtrip_amended_witness :
    isZodDatetime "2025-01-18T00:00:00.000Z" = true ∧
    parseAppStateV schemaCanonicalState = some schemaCanonicalState ∧
    extractStateFromImport (jround (createSessionExport "2025-01-18T00:00:00.000Z"
      schemaCanonicalState)) = some schemaCanonicalState :=
  ⟨rfl, rfl, roundtrip_amended schemaCanonicalState "2025-01-18T00:00:00.000Z" rfl rfl⟩
